import Mathlib

/-!
Shallow embedding of the front-matter patcher of `src/server.py`
(`update_metadata`, lines 200-293).  Documents are lists of characters;
the Hub download/commit I/O around the patch logic is abstracted away:
the function takes the README content and the two optional field values
and returns the patched content or the error the tool reports.
-/

/-- The characters Python's regex class `\s` matches in `str` patterns
(`Py_UNICODE_ISSPACE`): tab, LF, VT, FF, CR (0x09-0x0D), the separators
0x1C-0x1F, space, NEL (0x85), NBSP (0xA0), and the Unicode space
characters U+1680, U+2000-U+200A, U+2028, U+2029, U+202F, U+205F,
U+3000. -/
def pySpace (c : Char) : Bool :=
  (9 ≤ c.toNat && c.toNat ≤ 13) || (28 ≤ c.toNat && c.toNat ≤ 32) ||
    c.toNat == 0x85 || c.toNat == 0xA0 || c.toNat == 0x1680 ||
    (0x2000 ≤ c.toNat && c.toNat ≤ 0x200A) || c.toNat == 0x2028 ||
    c.toNat == 0x2029 || c.toNat == 0x202F || c.toNat == 0x205F ||
    c.toNat == 0x3000

/-- `leadsWith p s` is true when `p` is an initial run of `s`. -/
def leadsWith : List Char → List Char → Bool
  | [], _ => true
  | _ :: _, [] => false
  | a :: as, b :: bs => a == b && leadsWith as bs

/-- State-passing scan for the two-character sequence CR LF; `p` records
whether the previous character was a CR.  `crlfAux false s` is
`"\r\n" in s` (line 230 of the source). -/
def crlfAux (p : Bool) : List Char → Bool
  | [] => false
  | c :: t => (p && c == '\n') || crlfAux (c == '\r') t

/-- `"\r\n" in content` (line 230). -/
def containsCRLF (s : List Char) : Bool :=
  crlfAux false s

/-- `line_ending = "\r\n" if "\r\n" in content else "\n"` (line 230). -/
def lineEnding (content : List Char) : List Char :=
  if containsCRLF content then "\r\n".data else "\n".data

/-- The part of `re.match(r"^---\s*[\r\n]", content)` after the dashes:
a run of whitespace characters ending at a CR or LF. -/
def wsThenNL : List Char → Bool
  | [] => false
  | c :: t =>
      if c == '\r' || c == '\n' then true
      else if pySpace c then wsThenNL t else false

/-- `re.match(r"^---\s*[\r\n]", content) is not None` (line 232). -/
def hasYamlHeader : List Char → Bool
  | '-' :: '-' :: '-' :: rest => wsThenNL rest
  | _ => false

/-- Whether `---` occurs as a substring (at any position, mid-line
included) — what the lazy `(.*?)---` of line 244 needs to succeed. -/
def hasTriple : List Char → Bool
  | [] => false
  | c :: t => (c == '-' && leadsWith ['-', '-'] t) || hasTriple t

/-- Split at the leftmost occurrence of `---` (the lazy `(.*?)---` of
line 244): the text before it and the text after it, or `none` when the
document has no closing `---` at all. -/
def findClose : List Char → Option (List Char × List Char)
  | [] => none
  | c :: t =>
      if c == '-' && leadsWith ['-', '-'] t then some ([], t.drop 2)
      else (findClose t).map (fun p => (c :: p.1, p.2))

/-- `re.match(r"^---(.*?)---\s*", content, re.DOTALL)` (line 244): the
group-1 header interior and the content after the match end.  The match
end sits after the greedy `\s*`, so the whitespace following the closing
`---` (its line-ending, blank lines, even leading indentation of the
body) is consumed. -/
def headerMatch : List Char → Option (List Char × List Char)
  | '-' :: '-' :: '-' :: rest =>
      (findClose rest).map (fun p => (p.1, p.2.dropWhile pySpace))
  | _ => none

/-- A line (without its terminating newline) matches `^\s*<name>:`. -/
def isFieldLine (name seg : List Char) : Bool :=
  leadsWith (name ++ [':']) (seg.dropWhile pySpace)

/-- State-passing "last character was a CR" scan: `endCR p s` is the
value of the flag after consuming `s` starting from `p`; in particular
`endCR false s` says the nonempty `s` ends in a CR. -/
def endCR (p : Bool) : List Char → Bool
  | [] => p
  | c :: t => endCR (c == '\r') t

/-- Items of a parsed `re.sub` replacement template: literal characters
and group backreferences (`sre_parse.parse_template`). -/
inductive ReplItem where
  | lit (c : Char)
  | group (n : Nat)
deriving DecidableEq

def isDigitC (c : Char) : Bool := 48 ≤ c.toNat && c.toNat ≤ 57

def isOctC (c : Char) : Bool := 48 ≤ c.toNat && c.toNat ≤ 55

def isLetterC (c : Char) : Bool :=
  (65 ≤ c.toNat && c.toNat ≤ 90) || (97 ≤ c.toNat && c.toNat ≤ 122)

def digitVal (c : Char) : Nat := c.toNat - 48

/-- A run of ASCII digits with single underscores allowed between
digits, as Python's `int` accepts in a numeric group name. -/
def parseDigitsGo (acc : Nat) : List Char → Option Nat
  | [] => some acc
  | '_' :: d :: t => if isDigitC d then parseDigitsGo (acc * 10 + digitVal d) t else none
  | ['_'] => none
  | d :: t => if isDigitC d then parseDigitsGo (acc * 10 + digitVal d) t else none

def parseDigitsU : List Char → Option Nat
  | [] => none
  | c :: t => if isDigitC c then parseDigitsGo (digitVal c) t else none

/-- Resolution of a `\g<...>` group name that is not an identifier:
Python applies `int()` to it — surrounding whitespace stripped, an
optional sign, digits with single underscores — and rejects a negative
result; an identifier name raises (the pattern has no named groups), as
does any other failure, so those all end in `none`. -/
def parseIntName (s : List Char) : Option Nat :=
  match ((s.dropWhile pySpace).reverse.dropWhile pySpace).reverse with
  | '+' :: rest => parseDigitsU rest
  | '-' :: rest =>
      match parseDigitsU rest with
      | some 0 => some 0
      | _ => none
  | rest => parseDigitsU rest

/-- Scanner state for `parseTemplate`: plain text, just after a
backslash, or inside a `\g<...>` group name (accumulated reversed). -/
inductive PTMode where
  | normal
  | esc
  | gname (acc : List Char)

/-- `sre_parse.parse_template` (CPython 3.11) on a `str` replacement for
a pattern with `groups` capture groups and no named groups: `\1`..`\99`
and `\g<...>` are group references (an index above `groups` is an
error), `\0` with up to two more octal digits and `\ooo` (three octal
digits, at most 0o377) are octal escapes, `\a \b \f \n \r \t \v \\` are
character escapes, an unknown escape of an ASCII letter, a malformed
`\g<...>` and a trailing lone backslash are errors, and any other
unknown escape is kept verbatim including its backslash.  An error
(`re.error`, or `IndexError` for an identifier group name) propagates
out of `re.sub` and is caught by the handler at line 292, so the call
produces no document: here `none`. -/
def ptAux (groups : Nat) : PTMode → List Char → Option (List ReplItem)
  | .normal, [] => some []
  | .normal, c :: t =>
      if c == '\\' then ptAux groups .esc t
      else (ptAux groups .normal t).map (ReplItem.lit c :: ·)
  | .esc, [] => none
  | .esc, e :: t2 =>
      if e == 'g' then
        match t2 with
        | '<' :: t3 => ptAux groups (.gname []) t3
        | _ => none
      else if e == '0' then
        match t2 with
        | d1 :: t3 =>
            if isOctC d1 then
              match t3 with
              | d2 :: t4 =>
                  if isOctC d2 then
                    (ptAux groups .normal t4).map
                      (ReplItem.lit (Char.ofNat (digitVal d1 * 8 + digitVal d2)) :: ·)
                  else
                    (ptAux groups .normal (d2 :: t4)).map
                      (ReplItem.lit (Char.ofNat (digitVal d1)) :: ·)
              | [] => some [ReplItem.lit (Char.ofNat (digitVal d1))]
            else (ptAux groups .normal (d1 :: t3)).map (ReplItem.lit (Char.ofNat 0) :: ·)
        | [] => some [ReplItem.lit (Char.ofNat 0)]
      else if isDigitC e then
        match t2 with
        | d2 :: t3 =>
            if isDigitC d2 then
              match t3 with
              | d3 :: t4 =>
                  if isOctC e && (isOctC d2 && isOctC d3) then
                    if digitVal e * 64 + digitVal d2 * 8 + digitVal d3 ≤ 255 then
                      (ptAux groups .normal t4).map
                        (ReplItem.lit (Char.ofNat
                          (digitVal e * 64 + digitVal d2 * 8 + digitVal d3)) :: ·)
                    else none
                  else
                    if digitVal e * 10 + digitVal d2 ≤ groups then
                      (ptAux groups .normal (d3 :: t4)).map
                        (ReplItem.group (digitVal e * 10 + digitVal d2) :: ·)
                    else none
              | [] =>
                  if digitVal e * 10 + digitVal d2 ≤ groups then
                    some [ReplItem.group (digitVal e * 10 + digitVal d2)]
                  else none
            else
              if digitVal e ≤ groups then
                (ptAux groups .normal (d2 :: t3)).map (ReplItem.group (digitVal e) :: ·)
              else none
        | [] => if digitVal e ≤ groups then some [ReplItem.group (digitVal e)] else none
      else if e == 'a' then (ptAux groups .normal t2).map (ReplItem.lit (Char.ofNat 7) :: ·)
      else if e == 'b' then (ptAux groups .normal t2).map (ReplItem.lit (Char.ofNat 8) :: ·)
      else if e == 'f' then (ptAux groups .normal t2).map (ReplItem.lit (Char.ofNat 12) :: ·)
      else if e == 'n' then (ptAux groups .normal t2).map (ReplItem.lit '\n' :: ·)
      else if e == 'r' then (ptAux groups .normal t2).map (ReplItem.lit '\r' :: ·)
      else if e == 't' then (ptAux groups .normal t2).map (ReplItem.lit '\t' :: ·)
      else if e == 'v' then (ptAux groups .normal t2).map (ReplItem.lit (Char.ofNat 11) :: ·)
      else if e == '\\' then (ptAux groups .normal t2).map (ReplItem.lit '\\' :: ·)
      else if isLetterC e then none
      else (ptAux groups .normal t2).map (fun r => ReplItem.lit '\\' :: ReplItem.lit e :: r)
  | .gname _, [] => none
  | .gname acc, c :: t =>
      if c == '>' then
        match acc with
        | [] => none
        | _ :: _ =>
            match parseIntName acc.reverse with
            | some idx =>
                if idx ≤ groups then (ptAux groups .normal t).map (ReplItem.group idx :: ·)
                else none
            | none => none
      else ptAux groups (.gname (c :: acc)) t

def parseTemplate (groups : Nat) (s : List Char) : Option (List ReplItem) :=
  ptAux groups PTMode.normal s

/-- The replacement string `f"\\1 {value}\\2"` of lines 253/264: a
group-1 backreference, a space, the interpolated value and a group-2
backreference.  The value is spliced into the template before parsing,
so its backslashes are template syntax (and a trailing backslash merges
with the following `\2`). -/
def templateOf (value : List Char) : List Char :=
  '\\' :: '1' :: ' ' :: (value ++ ['\\', '2'])

/-- Expansion of a parsed replacement template at one match: group 0 is
the whole match, group 1 the captured `^\s*<name>:`, group 2 the
captured `\r?\n`.  Indices above 2 are rejected by `parseTemplate`. -/
def expandRepl (g0 g1 g2 : List Char) : List ReplItem → List Char
  | [] => []
  | ReplItem.lit c :: r => c :: expandRepl g0 g1 g2 r
  | ReplItem.group 0 :: r => g0 ++ expandRepl g0 g1 g2 r
  | ReplItem.group 1 :: r => g1 ++ expandRepl g0 g1 g2 r
  | ReplItem.group 2 :: r => g2 ++ expandRepl g0 g1 g2 r
  | ReplItem.group _ :: r => expandRepl g0 g1 g2 r

/-- One match of `re.sub(r"(^\s*<name>:).*?(\r?\n)", ..., re.MULTILINE)`
replaced: `pending` holds the whitespace-only lines preceding the
matching line — the leading `\s*` absorbs them into group 1, since the
leftmost match starts at the first line of such a run — and `seg` is
the matching line without its `\n`.  Group 2 is `\r\n` exactly when the
line ends in a CR; the lazy `.*?` is the value portion without that CR. -/
def matchExpand (repl : List ReplItem) (name pending seg : List Char) : List Char :=
  expandRepl
    ((pending ++ seg.takeWhile pySpace ++ name ++ [':']) ++
      (if endCR false seg then ((seg.dropWhile pySpace).drop (name.length + 1)).dropLast
       else (seg.dropWhile pySpace).drop (name.length + 1)) ++
      (if endCR false seg then ['\r', '\n'] else ['\n']))
    (pending ++ seg.takeWhile pySpace ++ name ++ [':'])
    (if endCR false seg then ['\r', '\n'] else ['\n'])
    repl

/-- `re.sub` with a parsed template, scanning the newline-terminated
lines of the header interior; `pending` buffers a run of
whitespace-only lines (absorbed by a following match's `^\s*`, flushed
unchanged otherwise), `cur` accumulates the current line reversed.  The
final unterminated segment is flushed unchanged: the pattern needs a
closing `\n`. -/
def reSubAux (repl : List ReplItem) (name pending cur : List Char) :
    List Char → List Char
  | [] => pending ++ cur.reverse
  | c :: t =>
      if c == '\n' then
        if isFieldLine name cur.reverse then
          matchExpand repl name pending cur.reverse ++ reSubAux repl name [] [] t
        else if cur.all pySpace then
          reSubAux repl name (pending ++ cur.reverse ++ ['\n']) [] t
        else
          pending ++ cur.reverse ++ '\n' :: reSubAux repl name [] [] t
      else reSubAux repl name pending (c :: cur) t

def reSub (repl : List ReplItem) (name h : List Char) : List Char :=
  reSubAux repl name [] [] h

/-- The `re.sub` call of lines 251-256 / 262-267 described line by line
for a backslash-free value — the template `\1 <value>\2` then splices
the value verbatim (`reSub_eq_subAll` below proves the equivalence to
`reSub`): a matching newline-terminated line keeps its leading
whitespace, the field name and the colon (group 1), the value becomes
one space plus the new value, and the captured `\r?\n` (group 2) is
restored — the CR exactly when the segment ended in one. -/
def subLine (name value seg : List Char) : List Char :=
  if isFieldLine name seg then
    seg.takeWhile pySpace ++ name ++ [':', ' '] ++ value ++
      (if endCR false seg then ['\r'] else [])
  else seg

/-- Runs `subLine` over every newline-terminated line; `cur` accumulates
the current line reversed.  The final unterminated segment is left
unchanged: the pattern requires a closing `\n`. -/
def subAllAux (name value : List Char) (cur : List Char) : List Char → List Char
  | [] => cur.reverse
  | c :: t =>
      if c == '\n' then
        subLine name value cur.reverse ++ '\n' :: subAllAux name value [] t
      else subAllAux name value (c :: cur) t

/-- `re.sub` with no count replaces every non-overlapping match: every
matching newline-terminated line of the header interior is rewritten. -/
def subAll (name value h : List Char) : List Char :=
  subAllAux name value [] h

/-- `re.search(r"^\s*<name>:", header, re.MULTILINE)`: some line — the
final unterminated one included — matches. -/
def searchAux (name : List Char) (cur : List Char) : List Char → Bool
  | [] => isFieldLine name cur.reverse
  | c :: t =>
      if c == '\n' then isFieldLine name cur.reverse || searchAux name [] t
      else searchAux name (c :: cur) t

def searchField (name h : List Char) : Bool :=
  searchAux name [] h

/-- Lines 249-258 / 260-269: when some line matches the search, run
`re.sub` — the replacement template `f"\\1 {value}\\2"` is parsed first
and a parse error aborts the call even when the sub pattern matches
nothing — otherwise append `f"{name}: {value}{line_ending}"` to the
header interior (an f-string: no template processing). -/
def upsertField (name value le h : List Char) : Option (List Char) :=
  if searchField name h then
    match parseTemplate 2 (templateOf value) with
    | some repl => some (reSub repl name h)
    | none => none
  else some (h ++ name ++ [':', ' '] ++ value ++ le)

/-- `if <field> is not None:` around each upsert (lines 249, 260). -/
def applyEdit (name : List Char) (value : Option (List Char)) (le h : List Char) :
    Option (List Char) :=
  match value with
  | some v => upsertField name v le h
  | none => some h

/-- The upsert as it behaves for a backslash-free value, where the
template splices the value verbatim (`upsertField_no_bs` below). -/
def upsertFieldV (name value le h : List Char) : List Char :=
  if searchField name h then subAll name value h
  else h ++ name ++ [':', ' '] ++ value ++ le

/-- The guarded upsert for a backslash-free value
(`applyEdit_no_bs` below). -/
def applyEditV (name : List Char) (value : Option (List Char)) (le h : List Char) :
    List Char :=
  match value with
  | some v => upsertFieldV name v le h
  | none => h

/-- Python truthiness of the optional string argument (line 220:
`not pipeline_tag` is true for `None` and for the empty string). -/
def falsy : Option (List Char) → Bool
  | none => true
  | some [] => true
  | some (_ :: _) => false

/-- The tool's failure modes inside the patch logic: the up-front
no-fields validation (lines 220-221), the malformed-header return (line
273), and a regex error from a bad replacement template, which the
catch-all handler at lines 292-293 turns into the generic failure
message. -/
inductive PatchErr where
  | noFields
  | malformed
  | reError
deriving DecidableEq

def ptField : List Char := "pipeline_tag".data

def lnField : List Char := "library_name".data

/-- The header synthesized for a headerless document (lines 235-240):
the requested field lines between fresh delimiters, pipeline tag first. -/
def synthHeader (pt ln : Option (List Char)) (le : List Char) : List Char :=
  "---".data ++ le ++
    (match pt with
     | some v => ptField ++ [':', ' '] ++ v ++ le
     | none => []) ++
    (match ln with
     | some v => lnField ++ [':', ' '] ++ v ++ le
     | none => []) ++
    "---".data ++ le

/-- The patch logic of `update_metadata` (lines 220-273): validation,
line-ending inference, header detection, extraction, the two field
upserts in fixed order (pipeline tag then library name) and reassembly
`f"---{header}---{line_ending}{rest_of_content}"` (line 271). -/
def updateMetadata (pt ln : Option (List Char)) (content : List Char) :
    Except PatchErr (List Char) :=
  if falsy pt && falsy ln then .error .noFields
  else if hasYamlHeader content then
    match headerMatch content with
    | some (h0, rest) =>
        match applyEdit ptField pt (lineEnding content) h0 with
        | some h1 =>
            match applyEdit lnField ln (lineEnding content) h1 with
            | some h2 =>
                .ok ("---".data ++ h2 ++ "---".data ++ lineEnding content ++ rest)
            | none => .error .reError
        | none => .error .reError
    | none => .error .malformed
  else .ok (synthHeader pt ln (lineEnding content) ++ content)

/-- The first character exists and is not whitespace — true of both
field names; a line with such a prefix after its leading whitespace is
never whitespace-only. -/
def headNonWS : List Char → Bool
  | [] => false
  | c :: _ => !pySpace c

/-- Every newline-terminated line of the scanned text is a fixpoint of
`subLine name value`; the final unterminated segment is unconstrained
(`re.sub` never touches it). -/
def linesStableAux (name value cur : List Char) : List Char → Bool
  | [] => true
  | c :: t =>
      if c == '\n' then
        (subLine name value cur.reverse == cur.reverse) && linesStableAux name value [] t
      else linesStableAux name value (c :: cur) t

def linesStable (name value h : List Char) : Bool :=
  linesStableAux name value [] h

/-- The supplied value, when present, contains no `---`. -/
def optNoTriple : Option (List Char) → Bool
  | none => true
  | some v => !hasTriple v

/-! Spec-side notions, used to state the claims: the spec's line-oriented
reading of a document (§4.2-§4.3 and the glossary). -/

/-- Everything after the first LF (drops the first line together with its
line-ending). -/
def dropLine : List Char → List Char
  | [] => []
  | c :: t => if c == '\n' then t else dropLine t

/-- The first line without its `\r?\n` terminator. -/
def takeLine (s : List Char) : List Char :=
  let raw := s.takeWhile (fun c => c != '\n')
  match raw.getLast? with
  | some '\r' => raw.dropLast
  | _ => raw

/-- Modelled from the spec, §4.2-§4.3: scan the lines after the first for
one that is exactly `---`; the body is everything after that line and its
line-ending.  Fuel-driven recursion over the remaining length. -/
def specBodyAux : Nat → List Char → Option (List Char)
  | 0, _ => none
  | fuel + 1, s =>
      if s.isEmpty then none
      else if takeLine s == "---".data then some (dropLine s)
      else specBodyAux fuel (dropLine s)

/-- Modelled from the spec, §4.3: the body of a document with a header —
everything after the closing standalone `---` line and its line-ending;
`none` when no later line is exactly `---`. -/
def specBody (c : List Char) : Option (List Char) :=
  specBodyAux c.length (dropLine c)

/-- Every LF is immediately preceded by a CR; `p` records whether the
previous character was a CR.  `noBareLF s` formalizes "every line-ending
in `s` is CRLF". -/
def noBareLFAux (p : Bool) : List Char → Bool
  | [] => true
  | c :: t => (c != '\n' || p) && noBareLFAux (c == '\r') t

/-- The supplied value, when present, satisfies the character predicate
(used to state conditions on edit values). -/
def optAll (q : Char → Bool) : Option (List Char) → Bool
  | none => true
  | some v => v.all q

/-! Helper lemmas about the embedded operations. -/

theorem leadsWith_append (p t : List Char) : leadsWith p (p ++ t) = true := by
  induction p with
  | nil => rfl
  | cons a as ih => simp [leadsWith, ih]

theorem leadsWith_two_stable (s t : List Char) (h : 2 ≤ s.length) :
    leadsWith ['-', '-'] (s ++ t) = leadsWith ['-', '-'] s := by
  match s with
  | [] => simp at h
  | [a] => simp at h
  | a :: b :: s' => simp [leadsWith]

theorem findClose_append (a b : List Char)
    (h : hasTriple (a ++ ['-', '-']) = false) :
    findClose (a ++ '-' :: '-' :: '-' :: b) = some (a, b) := by
  induction a with
  | nil =>
      rw [List.nil_append, findClose]
      simp [leadsWith]
  | cons c a' ih =>
      rw [List.cons_append, hasTriple, Bool.or_eq_false_iff] at h
      obtain ⟨h1, h2⟩ := h
      have hcond : (c == '-' && leadsWith ['-', '-'] (a' ++ '-' :: '-' :: '-' :: b)) = false := by
        have hrw : a' ++ '-' :: '-' :: '-' :: b = (a' ++ ['-', '-']) ++ '-' :: b := by
          simp
        rw [hrw, leadsWith_two_stable _ _ (by simp)]
        exact h1
      rw [List.cons_append, findClose, if_neg (by simp [hcond]), ih h2]
      rfl

theorem all_ws_dropWhile_append (w s : List Char) (hw : w.all pySpace = true) :
    (w ++ s).dropWhile pySpace = s.dropWhile pySpace := by
  induction w with
  | nil => rfl
  | cons c t ih =>
      simp only [List.all_cons, Bool.and_eq_true] at hw
      rw [List.cons_append, List.dropWhile_cons, if_pos hw.1, ih hw.2]

theorem all_takeWhile (q p : Char → Bool) (s : List Char) (h : s.all q = true) :
    (s.takeWhile p).all q = true := by
  induction s with
  | nil => rfl
  | cons c t ih =>
      simp only [List.all_cons, Bool.and_eq_true] at h
      rw [List.takeWhile_cons]
      by_cases hp : p c = true
      · simp [hp, h.1, ih h.2]
      · simp [hp]

theorem wsThenNL_append (a b : List Char) (h : wsThenNL a = true) :
    wsThenNL (a ++ b) = true := by
  induction a with
  | nil => simp [wsThenNL] at h
  | cons c t ih =>
      rw [wsThenNL] at h
      rw [List.cons_append, wsThenNL]
      by_cases h1 : (c == '\r' || c == '\n') = true
      · rw [if_pos h1]
      · rw [if_neg h1] at h ⊢
        by_cases h2 : pySpace c = true
        · rw [if_pos h2] at h ⊢
          exact ih h
        · rw [if_neg h2] at h
          exact absurd h (by simp)

theorem wsThenNL_iff (s : List Char) :
    wsThenNL s = true ↔
      ∃ w nl t, s = w ++ nl :: t ∧ w.all pySpace = true ∧ (nl = '\r' ∨ nl = '\n') := by
  constructor
  · intro h
    induction s with
    | nil => simp [wsThenNL] at h
    | cons c t ih =>
        rw [wsThenNL] at h
        by_cases h1 : (c == '\r' || c == '\n') = true
        · refine ⟨[], c, t, rfl, rfl, ?_⟩
          rcases Bool.or_eq_true_iff.mp h1 with h1 | h1
          · exact Or.inl (by simpa using h1)
          · exact Or.inr (by simpa using h1)
        · rw [if_neg h1] at h
          by_cases h2 : pySpace c = true
          · rw [if_pos h2] at h
            obtain ⟨w, nl, t', heq, hw, hnl⟩ := ih h
            exact ⟨c :: w, nl, t', by rw [heq, List.cons_append],
              by simp [h2, hw], hnl⟩
          · rw [if_neg h2] at h
            exact absurd h (by simp)
  · rintro ⟨w, nl, t, rfl, hw, hnl⟩
    induction w with
    | nil =>
        rcases hnl with rfl | rfl <;> simp [wsThenNL]
    | cons c w' ih =>
        simp only [List.all_cons, Bool.and_eq_true] at hw
        rw [List.cons_append, wsThenNL]
        by_cases h1 : (c == '\r' || c == '\n') = true
        · rw [if_pos h1]
        · rw [if_neg h1, if_pos hw.1]
          exact ih hw.2

theorem subAllAux_append_line (n v acc pre rest : List Char)
    (hpre : pre.all (fun c => c != '\n') = true) :
    subAllAux n v acc (pre ++ '\n' :: rest)
      = subLine n v (acc.reverse ++ pre) ++ '\n' :: subAllAux n v [] rest := by
  induction pre generalizing acc with
  | nil => simp [subAllAux]
  | cons c p' ih =>
      simp only [List.all_cons, Bool.and_eq_true] at hpre
      have hc : (c == '\n') = false := by
        simpa using hpre.1
      rw [List.cons_append, subAllAux, if_neg (by simp [hc]), ih _ hpre.2]
      simp [List.reverse_cons, List.append_assoc]

theorem subAllAux_no_nl (n v acc s : List Char)
    (hs : s.all (fun c => c != '\n') = true) :
    subAllAux n v acc s = acc.reverse ++ s := by
  induction s generalizing acc with
  | nil => simp [subAllAux]
  | cons c t ih =>
      simp only [List.all_cons, Bool.and_eq_true] at hs
      have hc : (c == '\n') = false := by
        simpa using hs.1
      rw [subAllAux, if_neg (by simp [hc]), ih _ hs.2]
      simp [List.reverse_cons, List.append_assoc]

theorem searchAux_append_line (n acc pre rest : List Char)
    (hpre : pre.all (fun c => c != '\n') = true) :
    searchAux n acc (pre ++ '\n' :: rest)
      = (isFieldLine n (acc.reverse ++ pre) || searchAux n [] rest) := by
  induction pre generalizing acc with
  | nil => simp [searchAux]
  | cons c p' ih =>
      simp only [List.all_cons, Bool.and_eq_true] at hpre
      have hc : (c == '\n') = false := by
        simpa using hpre.1
      rw [List.cons_append, searchAux, if_neg (by simp [hc]), ih _ hpre.2]
      simp [List.reverse_cons, List.append_assoc]

theorem searchAux_no_nl (n acc s : List Char)
    (hs : s.all (fun c => c != '\n') = true) :
    searchAux n acc s = isFieldLine n (acc.reverse ++ s) := by
  induction s generalizing acc with
  | nil => simp [searchAux]
  | cons c t ih =>
      simp only [List.all_cons, Bool.and_eq_true] at hs
      have hc : (c == '\n') = false := by
        simpa using hs.1
      rw [searchAux, if_neg (by simp [hc]), ih _ hs.2]
      simp [List.reverse_cons, List.append_assoc]

theorem endCR_append (p : Bool) (a b : List Char) :
    endCR p (a ++ b) = endCR (endCR p a) b := by
  induction a generalizing p with
  | nil => rfl
  | cons c t ih => rw [List.cons_append, endCR, endCR, ih]

theorem endCR_false_of_no_cr (s : List Char)
    (h : s.all (fun c => c != '\r') = true) :
    endCR false s = false := by
  induction s with
  | nil => rfl
  | cons c t ih =>
      simp only [List.all_cons, Bool.and_eq_true] at h
      rw [endCR, show (c == '\r') = false by simpa using h.1]
      exact ih h.2

theorem crlfAux_append (p : Bool) (a b : List Char) :
    crlfAux p (a ++ b) = (crlfAux p a || crlfAux (endCR p a) b) := by
  induction a generalizing p with
  | nil => simp [crlfAux, endCR]
  | cons c t ih =>
      rw [List.cons_append, crlfAux, crlfAux, endCR, ih]
      simp [Bool.or_assoc]

theorem crlfAux_false_of_no_cr (s : List Char)
    (h : s.all (fun c => c != '\r') = true) :
    crlfAux false s = false := by
  induction s with
  | nil => rfl
  | cons c t ih =>
      simp only [List.all_cons, Bool.and_eq_true] at h
      rw [crlfAux, show (c == '\r') = false by simpa using h.1]
      simp [ih h.2]

theorem lineEnding_of_crlf (c : List Char) (h : containsCRLF c = true) :
    lineEnding c = "\r\n".data := by
  rw [lineEnding, if_pos h]

theorem lineEnding_all_ws (c : List Char) : (lineEnding c).all pySpace = true := by
  rw [lineEnding]
  by_cases h : containsCRLF c = true
  · rw [if_pos h]; decide
  · rw [if_neg h]; decide

theorem nbAux_append (p : Bool) (a b : List Char) :
    noBareLFAux p (a ++ b) = (noBareLFAux p a && noBareLFAux (endCR p a) b) := by
  induction a generalizing p with
  | nil => simp [noBareLFAux, endCR]
  | cons c t ih =>
      rw [List.cons_append, noBareLFAux, noBareLFAux, endCR, ih]
      simp [Bool.and_assoc]

theorem nbAux_of_no_nl (p : Bool) (s : List Char)
    (h : s.all (fun c => c != '\n') = true) :
    noBareLFAux p s = true := by
  induction s generalizing p with
  | nil => rfl
  | cons c t ih =>
      simp only [List.all_cons, Bool.and_eq_true] at h
      rw [noBareLFAux]
      simp [h.1, ih _ h.2]

theorem dashes_eq : ("---".data : List Char) = ['-', '-', '-'] := rfl

theorem nl_eq : ("\n".data : List Char) = ['\n'] := rfl

theorem all_weaken_left (p q : Char → Bool) (s : List Char)
    (h : s.all (fun c => p c && q c) = true) : s.all p = true := by
  rw [List.all_eq_true] at h ⊢
  intro x hx
  exact (Bool.and_eq_true_iff.mp (h x hx)).1

theorem all_weaken_right (p q : Char → Bool) (s : List Char)
    (h : s.all (fun c => p c && q c) = true) : s.all q = true := by
  rw [List.all_eq_true] at h ⊢
  intro x hx
  exact (Bool.and_eq_true_iff.mp (h x hx)).2

theorem ptAux_bs (groups : Nat) (t : List Char) :
    ptAux groups PTMode.normal ('\\' :: t) = ptAux groups PTMode.esc t := by
  rw [ptAux.eq_def]
  simp

theorem ptAux_lit_one (groups : Nat) (c : Char) (t : List Char)
    (hc : (c == '\\') = false) :
    ptAux groups PTMode.normal (c :: t)
      = (ptAux groups PTMode.normal t).map (fun r => ReplItem.lit c :: r) := by
  rw [ptAux.eq_def]
  simp [show ¬(c = '\\') from by simpa using hc]

theorem ptAux_esc_g1 (v : List Char) :
    ptAux 2 PTMode.esc ('1' :: ' ' :: v)
      = (ptAux 2 PTMode.normal (' ' :: v)).map (fun r => ReplItem.group 1 :: r) := by
  rw [ptAux.eq_def]
  simp +decide [isDigitC, digitVal]

theorem ptAux_lit (groups : Nat) (v k : List Char)
    (hv : v.all (fun c => c != '\\') = true) :
    ptAux groups PTMode.normal (v ++ k)
      = (ptAux groups PTMode.normal k).map (fun r => v.map ReplItem.lit ++ r) := by
  induction v with
  | nil =>
      simp only [List.nil_append, List.map_nil]
      cases hk : ptAux groups PTMode.normal k <;> simp [hk]
  | cons c t ih =>
      simp only [List.all_cons, Bool.and_eq_true] at hv
      have hc : (c == '\\') = false := by simpa using hv.1
      rw [List.cons_append, ptAux_lit_one groups c _ hc, ih hv.2]
      cases hk : ptAux groups PTMode.normal k <;> simp [hk]

theorem parseTemplate_no_bs (v : List Char)
    (hv : v.all (fun c => c != '\\') = true) :
    parseTemplate 2 (templateOf v)
      = some (ReplItem.group 1 :: ReplItem.lit ' ' ::
          (v.map ReplItem.lit ++ [ReplItem.group 2])) := by
  have h1 : ptAux 2 PTMode.normal (v ++ ['\\', '2'])
      = some (v.map ReplItem.lit ++ [ReplItem.group 2]) := by
    rw [ptAux_lit 2 v _ hv]; rfl
  show ptAux 2 PTMode.normal ('\\' :: '1' :: ' ' :: (v ++ ['\\', '2'])) = _
  rw [ptAux_bs, ptAux_esc_g1, ptAux_lit_one 2 ' ' _ (by decide), h1]
  rfl

theorem expandRepl_lits (g0 g1 g2 v : List Char) (r : List ReplItem) :
    expandRepl g0 g1 g2 (v.map ReplItem.lit ++ r) = v ++ expandRepl g0 g1 g2 r := by
  induction v with
  | nil => rfl
  | cons c t ih => simp [expandRepl, ih]

theorem matchExpand_no_bs (v name pending seg : List Char)
    (hf : isFieldLine name seg = true) :
    matchExpand (ReplItem.group 1 :: ReplItem.lit ' ' ::
        (v.map ReplItem.lit ++ [ReplItem.group 2])) name pending seg
      = pending ++ subLine name v seg ++ ['\n'] := by
  rw [matchExpand, subLine, if_pos hf]
  by_cases he : endCR false seg = true <;>
    simp [he, expandRepl, expandRepl_lits, List.append_assoc]

theorem reSubAux_eq_subAllAux (v name : List Char) :
    ∀ (t pending cur : List Char),
      reSubAux (ReplItem.group 1 :: ReplItem.lit ' ' ::
          (v.map ReplItem.lit ++ [ReplItem.group 2])) name pending cur t
        = pending ++ subAllAux name v cur t := by
  intro t
  induction t with
  | nil => intro pending cur; rfl
  | cons c t ih =>
      intro pending cur
      simp only [reSubAux, subAllAux]
      by_cases hc : (c == '\n') = true
      · rw [if_pos hc, if_pos hc]
        by_cases hf : isFieldLine name cur.reverse = true
        · rw [if_pos hf, matchExpand_no_bs v name pending cur.reverse hf, ih [] []]
          simp [List.append_assoc]
        · rw [if_neg hf]
          by_cases hw : cur.all pySpace = true
          · rw [if_pos hw, ih (pending ++ cur.reverse ++ ['\n']) []]
            rw [subLine, if_neg hf]
            simp [List.append_assoc]
          · rw [if_neg hw, ih [] [], subLine, if_neg hf]
            simp [List.append_assoc]
      · rw [if_neg hc, if_neg hc, ih pending (c :: cur)]

theorem upsertField_no_bs (name v le h : List Char)
    (hv : v.all (fun c => c != '\\') = true) :
    upsertField name v le h = some (upsertFieldV name v le h) := by
  rw [upsertField, upsertFieldV]
  by_cases hs : searchField name h = true
  · rw [if_pos hs, if_pos hs, parseTemplate_no_bs v hv]
    simp only []
    rw [reSub, reSubAux_eq_subAllAux v name h [] [], List.nil_append, subAll]
  · rw [if_neg hs, if_neg hs]

theorem applyEdit_no_bs (name : List Char) (val : Option (List Char)) (le h : List Char)
    (hval : optAll (fun c => c != '\\') val = true) :
    applyEdit name val le h = some (applyEditV name val le h) := by
  cases val with
  | none => rfl
  | some v =>
      simp only [optAll] at hval
      exact upsertField_no_bs name v le h hval

theorem updateMetadata_header_no_bs (pt ln : Option (List Char)) (c h0 rest : List Char)
    (hf : (falsy pt && falsy ln) = false)
    (hh : hasYamlHeader c = true)
    (hm : headerMatch c = some (h0, rest))
    (hbpt : optAll (fun x => x != '\\') pt = true)
    (hbln : optAll (fun x => x != '\\') ln = true) :
    updateMetadata pt ln c
      = .ok ("---".data ++
          applyEditV lnField ln (lineEnding c) (applyEditV ptField pt (lineEnding c) h0) ++
          "---".data ++ lineEnding c ++ rest) := by
  rw [updateMetadata, if_neg (by simp [hf]), if_pos hh, hm]
  simp only [applyEdit_no_bs ptField pt (lineEnding c) h0 hbpt,
    applyEdit_no_bs lnField ln (lineEnding c) (applyEditV ptField pt (lineEnding c) h0) hbln]


/-- Claim C7: a headerless document gains a synthesized header containing
only the requested field lines (pipeline tag first, then library name),
and the original content follows the closing delimiter unchanged. -/
theorem c7_no_header_creation (pt ln : Option (List Char)) (c : List Char)
    (hf : (falsy pt && falsy ln) = false)
    (hnh : hasYamlHeader c = false) :
    updateMetadata pt ln c =
      .ok ("---".data ++ lineEnding c ++
        (match pt with
         | some v => ptField ++ [':', ' '] ++ v ++ lineEnding c
         | none => []) ++
        (match ln with
         | some v => lnField ++ [':', ' '] ++ v ++ lineEnding c
         | none => []) ++
        "---".data ++ lineEnding c ++ c) := by
  cases pt <;> cases ln <;>
    first
      | exact absurd hf (by decide)
      | (rw [updateMetadata, if_neg (by simp [hf]), if_neg (by simp [hnh]),
          synthHeader.eq_def]
         try simp [List.append_assoc])

/-- Claim C7, witness: the spec's concrete no-header example. -/
theorem c7_witness :
    updateMetadata (some ("text-generation".data)) none ("# Title\nBody text\n".data)
      = .ok ("---\npipeline_tag: text-generation\n---\n# Title\nBody text\n".data) := by
  have h := c7_no_header_creation (some ("text-generation".data)) none
      ("# Title\nBody text\n".data) (by decide) (by decide)
  exact h

/-- Claim C8: replacing an existing field rewrites only that line's value;
the other header lines and the body are untouched, byte for byte. -/
theorem c8_existing_field_replacement :
    updateMetadata (some ("new-value".data)) none
        ("---\npipeline_tag: old-value\nlicense: mit\n---\nBody\n".data)
      = .ok ("---\npipeline_tag: new-value\nlicense: mit\n---\nBody\n".data) := rfl

/-- Claim C9: a call that requests zero field edits fails with the
no-fields error, with the same result for every document — the document
is never examined. -/
theorem c9_zero_edits_rejected (c : List Char) :
    updateMetadata none none c = .error .noFields := rfl

/-- Claim C1, counterexample: the greedy `\s*` after the closing `---`
consumes the blank line following the delimiter, so the spec-side body of
the output differs from the spec-side body of the input. -/
theorem c1_counterexample :
    updateMetadata (some ("x".data)) none ("---\na: b\n---\n\nBody\n".data)
        = .ok ("---\na: b\npipeline_tag: x\n---\nBody\n".data) ∧
      specBody ("---\na: b\n---\n\nBody\n".data) = some ("\nBody\n".data) ∧
      specBody ("---\na: b\npipeline_tag: x\n---\nBody\n".data) = some ("Body\n".data) ∧
      ("\nBody\n".data : List Char) ≠ "Body\n".data :=
  ⟨rfl, rfl, rfl, by decide⟩

/-- Claim C6, counterexample: a body starting with a space loses that
space on the second patch (the greedy `\s*` eats it), so the second
output differs from the first. -/
theorem c6_counterexample :
    updateMetadata (some ("x".data)) none (" Body".data)
        = .ok ("---\npipeline_tag: x\n---\n Body".data) ∧
      updateMetadata (some ("x".data)) none ("---\npipeline_tag: x\n---\n Body".data)
        = .ok ("---\npipeline_tag: x\n---\nBody".data) ∧
      ("---\npipeline_tag: x\n---\n Body".data : List Char)
        ≠ "---\npipeline_tag: x\n---\nBody".data :=
  ⟨rfl, rfl, by decide⟩

/-- Claim C1, amended: whenever the patch of a document with a
well-formed header (interior free of `---`) succeeds, the output is the
reassembled header, a closing `---`, one synthesized line-ending, and
the tail after the closing delimiter with the whitespace run that
immediately follows the delimiter stripped — so the body is preserved
verbatim exactly when no extra whitespace follows the closing
delimiter, and the counterexample's blank line is collapsed into the
single line-ending. -/
theorem c1_body_preserved (pt ln : Option (List Char)) (interior after out : List Char)
    (hws : wsThenNL interior = true)
    (htr : hasTriple (interior ++ ['-', '-']) = false)
    (hok : updateMetadata pt ln ("---".data ++ interior ++ "---".data ++ after)
      = .ok out) :
    ∃ h2, out = "---".data ++ h2 ++ "---".data ++
      lineEnding ("---".data ++ interior ++ "---".data ++ after) ++
      after.dropWhile pySpace := by
  have hcontent : "---".data ++ interior ++ "---".data ++ after
      = '-' :: '-' :: '-' :: (interior ++ '-' :: '-' :: '-' :: after) := by
    simp [dashes_eq, List.append_assoc]
  have hh : hasYamlHeader ("---".data ++ interior ++ "---".data ++ after) = true := by
    rw [hcontent]
    show wsThenNL (interior ++ '-' :: '-' :: '-' :: after) = true
    exact wsThenNL_append _ _ hws
  have hhm : headerMatch ("---".data ++ interior ++ "---".data ++ after)
      = some (interior, after.dropWhile pySpace) := by
    rw [hcontent]
    show (findClose (interior ++ '-' :: '-' :: '-' :: after)).map
        (fun p => (p.1, p.2.dropWhile pySpace)) = _
    rw [findClose_append _ _ htr, Option.map_some']
  by_cases hF : (falsy pt && falsy ln) = true
  · rw [updateMetadata, if_pos hF] at hok
    exact absurd hok (by simp)
  · rw [updateMetadata, if_neg hF, if_pos hh, hhm] at hok
    simp only [] at hok
    cases h1m : applyEdit ptField pt
        (lineEnding ("---".data ++ interior ++ "---".data ++ after)) interior with
    | none =>
        rw [h1m] at hok
        simp only [] at hok
        exact absurd hok (by simp)
    | some h1 =>
        rw [h1m] at hok
        simp only [] at hok
        cases h2m : applyEdit lnField ln
            (lineEnding ("---".data ++ interior ++ "---".data ++ after)) h1 with
        | none =>
            rw [h2m] at hok
            simp only [] at hok
            exact absurd hok (by simp)
        | some h2 =>
            rw [h2m] at hok
            simp only [Except.ok.injEq] at hok
            exact ⟨h2, hok.symm⟩

/-- Claim C1, witness: a concrete succeeding patch whose input carries a
blank line after the closing delimiter; the output is the header, the
single line-ending, and the whitespace-stripped tail. -/
theorem c1_witness :
    ∃ h2, ("---\na: b\npipeline_tag: x\n---\nBody\n".data : List Char)
        = "---".data ++ h2 ++ "---".data ++
          lineEnding ("---".data ++ "\na: b\n".data ++ "---".data ++ "\n\nBody\n".data) ++
          ("\n\nBody\n".data).dropWhile pySpace :=
  c1_body_preserved (some ("x".data)) none ("\na: b\n".data) ("\n\nBody\n".data)
    ("---\na: b\npipeline_tag: x\n---\nBody\n".data)
    (by decide) (by decide) rfl

theorem dropWhile_ptField (X : List Char) :
    (ptField ++ X).dropWhile pySpace = ptField ++ X := by
  rw [show ptField = 'p' :: "ipeline_tag".data from rfl, List.cons_append,
    List.dropWhile_cons, if_neg (by decide)]

theorem dropWhile_lnField (X : List Char) :
    (lnField ++ X).dropWhile pySpace = lnField ++ X := by
  rw [show lnField = 'l' :: "ibrary_name".data from rfl, List.cons_append,
    List.dropWhile_cons, if_neg (by decide)]

theorem not_lnLine_ptField (X : List Char) :
    isFieldLine lnField (ptField ++ X) = false := by
  rw [isFieldLine, dropWhile_ptField,
    show lnField ++ [':'] = 'l' :: ("ibrary_name:".data) from rfl,
    show ptField ++ X = 'p' :: ("ipeline_tag".data ++ X) from rfl]
  simp [leadsWith]

theorem not_ptLine_lnField (X : List Char) :
    isFieldLine ptField (lnField ++ X) = false := by
  rw [isFieldLine, dropWhile_lnField,
    show ptField ++ [':'] = 'p' :: ("ipeline_tag:".data) from rfl,
    show lnField ++ X = 'l' :: ("ibrary_name".data ++ X) from rfl]
  simp [leadsWith]

theorem subLine_no_nl (n v seg : List Char)
    (hn : n.all (fun x => x != '\n') = true)
    (hv : v.all (fun x => x != '\n') = true)
    (hs : seg.all (fun x => x != '\n') = true) :
    (subLine n v seg).all (fun x => x != '\n') = true := by
  rw [subLine]
  by_cases hf : isFieldLine n seg = true
  · rw [if_pos hf]
    by_cases he : endCR false seg = true
    · rw [if_pos he]
      simp [List.all_append, all_takeWhile _ _ _ hs, hn, hv]
    · rw [if_neg he]
      simp [List.all_append, all_takeWhile _ _ _ hs, hn, hv]
  · rw [if_neg hf]
    exact hs

theorem endCR_cr_single (p : Bool) : endCR p ['\r'] = true := rfl

theorem endCR_crlf (p : Bool) : endCR p ['\r', '\n'] = false := rfl

theorem nbAux_d3 (p : Bool) : noBareLFAux p ("---".data) = true := by
  cases p <;> rfl

theorem endCR_d3 (p : Bool) : endCR p ("---".data) = false := rfl

theorem nbAux_crlfs (p : Bool) : noBareLFAux p ("\r\n".data) = true := by
  cases p <;> rfl

theorem endCR_crlfs (p : Bool) : endCR p ("\r\n".data) = false := rfl

theorem endCR_nil (p : Bool) : endCR p [] = p := rfl

theorem nbAux_nil (p : Bool) : noBareLFAux p [] = true := rfl

theorem nbAux_fieldline (n v : List Char) (p : Bool)
    (hn : n.all (fun x => x != '\n') = true)
    (hv : v.all (fun x => x != '\n') = true) :
    noBareLFAux p (n ++ [':', ' '] ++ v ++ "\r\n".data) = true ∧
      endCR p (n ++ [':', ' '] ++ v ++ "\r\n".data) = false := by
  constructor <;>
    simp [nbAux_append, endCR_append, noBareLFAux, endCR,
      fun q => nbAux_of_no_nl q n hn, fun q => nbAux_of_no_nl q v hv]

theorem dropWhile_idem (p : Char → Bool) (s : List Char) :
    (s.dropWhile p).dropWhile p = s.dropWhile p := by
  induction s with
  | nil => rfl
  | cons c t ih =>
      by_cases hp : p c = true
      · rw [List.dropWhile_cons, if_pos hp]
        exact ih
      · rw [List.dropWhile_cons, if_neg hp, List.dropWhile_cons, if_neg hp]

theorem endCR_cons (p : Bool) (c : Char) (t : List Char) :
    endCR p (c :: t) = endCR false (c :: t) := rfl

theorem split_at_nl (s : List Char) :
    s.all (fun c => c != '\n') = true ∨
      ∃ p t, s = p ++ '\n' :: t ∧ p.all (fun c => c != '\n') = true := by
  induction s with
  | nil => exact Or.inl rfl
  | cons c s' ih =>
      by_cases hc : c = '\n'
      · subst hc
        exact Or.inr ⟨[], s', rfl, rfl⟩
      · rcases ih with h | ⟨p, t, rfl, hp⟩
        · exact Or.inl (by simp [List.all_cons, hc, h])
        · exact Or.inr ⟨c :: p, t, rfl, by simp [List.all_cons, hc, hp]⟩

theorem wsThenNL_iff_clean (s : List Char) :
    wsThenNL s = true ↔
      ∃ w nl t, s = w ++ nl :: t ∧
        w.all (fun c => pySpace c && (c != '\r' && c != '\n')) = true ∧
        (nl = '\r' ∨ nl = '\n') := by
  constructor
  · intro h
    induction s with
    | nil => simp [wsThenNL] at h
    | cons c t ih =>
        rw [wsThenNL] at h
        by_cases h1 : (c == '\r' || c == '\n') = true
        · refine ⟨[], c, t, rfl, rfl, ?_⟩
          rcases Bool.or_eq_true_iff.mp h1 with h1 | h1
          · exact Or.inl (by simpa using h1)
          · exact Or.inr (by simpa using h1)
        · rw [if_neg h1] at h
          by_cases h2 : pySpace c = true
          · rw [if_pos h2] at h
            obtain ⟨w, nl, t', heq, hw, hnl⟩ := ih h
            refine ⟨c :: w, nl, t', by rw [heq, List.cons_append], ?_, hnl⟩
            have h1' : ¬(c = '\r') ∧ ¬(c = '\n') := by
              constructor <;> intro hcon <;> subst hcon <;> exact h1 (by decide)
            simp [List.all_cons, h2, hw, h1'.1, h1'.2]
          · rw [if_neg h2] at h
            exact absurd h (by simp)
  · rintro ⟨w, nl, t, rfl, hw, hnl⟩
    exact (wsThenNL_iff _).mpr ⟨w, nl, t, rfl, all_weaken_left _ _ _ hw, hnl⟩

theorem leadsWith_mono (p s t : List Char) (h : leadsWith p s = true) :
    leadsWith p (s ++ t) = true := by
  induction p generalizing s with
  | nil => rfl
  | cons a as ih =>
      cases s with
      | nil => simp [leadsWith] at h
      | cons b s' =>
          rw [leadsWith, Bool.and_eq_true_iff] at h
          rw [List.cons_append, leadsWith, Bool.and_eq_true_iff]
          exact ⟨h.1, ih s' h.2⟩

theorem hasTriple_mono (s t : List Char) (h : hasTriple s = true) :
    hasTriple (s ++ t) = true := by
  induction s with
  | nil => simp [hasTriple] at h
  | cons c s' ih =>
      rw [hasTriple, Bool.or_eq_true_iff] at h
      rw [List.cons_append, hasTriple, Bool.or_eq_true_iff]
      rcases h with h | h
      · rw [Bool.and_eq_true_iff] at h
        exact Or.inl (Bool.and_eq_true_iff.mpr ⟨h.1, leadsWith_mono _ _ _ h.2⟩)
      · exact Or.inr (ih h)

theorem hasTriple_suffix (s t : List Char) (h : hasTriple t = true) :
    hasTriple (s ++ t) = true := by
  induction s with
  | nil => exact h
  | cons c s' ih =>
      rw [List.cons_append, hasTriple, Bool.or_eq_true_iff]
      exact Or.inr ih

theorem hasTriple_append_safe (a b : List Char)
    (ha : hasTriple a = false) (hb : hasTriple b = false)
    (hbh : leadsWith ['-'] b = false) :
    hasTriple (a ++ b) = false := by
  induction a with
  | nil => exact hb
  | cons c a' ih =>
      rw [hasTriple, Bool.or_eq_false_iff] at ha
      rw [List.cons_append, hasTriple, Bool.or_eq_false_iff]
      refine ⟨?_, ih ha.2⟩
      by_cases hc : (c == '-') = true
      · rw [hc, Bool.true_and]
        rw [hc, Bool.true_and] at ha
        match a' with
        | [] =>
            match b with
            | [] => rfl
            | x :: b' =>
                have hx : ('-' == x) = false := by simpa [leadsWith] using hbh
                simp [leadsWith, hx]
        | [d] =>
            show leadsWith ['-', '-'] (d :: b) = false
            rw [leadsWith]
            by_cases hd : ('-' == d) = true
            · rw [hd, Bool.true_and]
              match b with
              | [] => rfl
              | x :: b' =>
                  have hx : ('-' == x) = false := by simpa [leadsWith] using hbh
                  simp [leadsWith, hx]
            · simp [show ('-' == d) = false from by simpa using hd]
        | d :: e :: a'' =>
            rw [show (d :: e :: a'') ++ b = (d :: e :: a'') ++ b from rfl,
              leadsWith_two_stable _ _ (by simp)]
            exact ha.1
      · simp [show (c == '-') = false from by simpa using hc]

theorem no_dash_no_triple (s : List Char)
    (h : s.all (fun c => c != '-') = true) : hasTriple s = false := by
  induction s with
  | nil => rfl
  | cons c t ih =>
      simp only [List.all_cons, Bool.and_eq_true] at h
      rw [hasTriple, Bool.or_eq_false_iff]
      exact ⟨by simp [show (c == '-') = false from by simpa using h.1],
        ih h.2⟩

theorem all_ws_no_dash (s : List Char) (h : s.all pySpace = true) :
    s.all (fun c => c != '-') = true := by
  rw [List.all_eq_true] at h ⊢
  intro x hx
  have hw := h x hx
  by_contra hcon
  have : x = '-' := by simpa using hcon
  subst this
  exact absurd hw (by decide)

theorem subAll_split (n v p t : List Char)
    (hp : p.all (fun c => c != '\n') = true) :
    subAll n v (p ++ '\n' :: t) = subLine n v p ++ '\n' :: subAll n v t := by
  rw [subAll, subAllAux_append_line _ _ _ _ _ hp]
  rfl

theorem subAll_no_nl (n v s : List Char)
    (hs : s.all (fun c => c != '\n') = true) : subAll n v s = s := by
  rw [subAll, subAllAux_no_nl _ _ _ _ hs]
  rfl

theorem searchField_split (n p t : List Char)
    (hp : p.all (fun c => c != '\n') = true) :
    searchField n (p ++ '\n' :: t) = (isFieldLine n p || searchField n t) := by
  rw [searchField, searchAux_append_line _ _ _ _ hp]
  rfl

theorem searchField_no_nl (n s : List Char)
    (hs : s.all (fun c => c != '\n') = true) :
    searchField n s = isFieldLine n s := by
  rw [searchField, searchAux_no_nl _ _ _ hs]
  rfl

theorem lsAux_append_line (n v acc pre rest : List Char)
    (hpre : pre.all (fun c => c != '\n') = true) :
    linesStableAux n v acc (pre ++ '\n' :: rest)
      = ((subLine n v (acc.reverse ++ pre) == acc.reverse ++ pre) &&
          linesStableAux n v [] rest) := by
  induction pre generalizing acc with
  | nil => simp [linesStableAux]
  | cons c p' ih =>
      simp only [List.all_cons, Bool.and_eq_true] at hpre
      have hc : (c == '\n') = false := by
        simpa using hpre.1
      rw [List.cons_append, linesStableAux, if_neg (by simp [hc]), ih _ hpre.2]
      simp [List.reverse_cons, List.append_assoc]

theorem lsAux_no_nl (n v acc s : List Char)
    (hs : s.all (fun c => c != '\n') = true) :
    linesStableAux n v acc s = true := by
  induction s generalizing acc with
  | nil => rfl
  | cons c t ih =>
      simp only [List.all_cons, Bool.and_eq_true] at hs
      have hc : (c == '\n') = false := by
        simpa using hs.1
      rw [linesStableAux, if_neg (by simp [hc])]
      exact ih _ hs.2

theorem linesStable_split (n v p t : List Char)
    (hp : p.all (fun c => c != '\n') = true) :
    linesStable n v (p ++ '\n' :: t)
      = ((subLine n v p == p) && linesStable n v t) := by
  rw [linesStable, lsAux_append_line _ _ _ _ _ hp]
  rfl

theorem linesStable_no_nl (n v s : List Char)
    (hs : s.all (fun c => c != '\n') = true) : linesStable n v s = true :=
  lsAux_no_nl n v [] s hs

theorem all_takeWhile_self (p : Char → Bool) (s : List Char) :
    (s.takeWhile p).all p = true := by
  induction s with
  | nil => rfl
  | cons c t ih =>
      rw [List.takeWhile_cons]
      by_cases hp : p c = true
      · simp [hp, ih]
      · simp [hp]

theorem takeWhile_ws_append (w s : List Char) (hw : w.all pySpace = true) :
    (w ++ s).takeWhile pySpace = w ++ s.takeWhile pySpace := by
  induction w with
  | nil => rfl
  | cons c t ih =>
      simp only [List.all_cons, Bool.and_eq_true] at hw
      rw [List.cons_append, List.takeWhile_cons, if_pos hw.1, ih hw.2,
        List.cons_append]

theorem dropWhile_headNonWS (n X : List Char) (hn : headNonWS n = true) :
    (n ++ X).dropWhile pySpace = n ++ X := by
  cases n with
  | nil => exact absurd hn (by simp [headNonWS])
  | cons c rest =>
      have hc : pySpace c = false := by
        simpa [headNonWS] using hn
      rw [List.cons_append, List.dropWhile_cons, if_neg (by simp [hc])]

theorem takeWhile_headNonWS (n X : List Char) (hn : headNonWS n = true) :
    (n ++ X).takeWhile pySpace = [] := by
  cases n with
  | nil => exact absurd hn (by simp [headNonWS])
  | cons c rest =>
      have hc : pySpace c = false := by
        simpa [headNonWS] using hn
      rw [List.cons_append, List.takeWhile_cons, if_neg (by simp [hc])]

theorem isFieldLine_nil_false (n : List Char) (hn : headNonWS n = true) :
    isFieldLine n [] = false := by
  cases n with
  | nil => exact absurd hn (by simp [headNonWS])
  | cons c rest => rfl

/-- The leading whitespace of a rewritten field line is the original
line's leading whitespace. -/
theorem takeWhile_ws_out (n ws X : List Char) (hn : headNonWS n = true)
    (hws : ws.all pySpace = true) :
    (ws ++ n ++ X).takeWhile pySpace = ws := by
  rw [List.append_assoc, takeWhile_ws_append _ _ hws, takeWhile_headNonWS _ _ hn,
    List.append_nil]

theorem dropWhile_ws_out (n ws X : List Char) (hn : headNonWS n = true)
    (hws : ws.all pySpace = true) :
    (ws ++ n ++ X).dropWhile pySpace = n ++ X := by
  rw [List.append_assoc, all_ws_dropWhile_append _ _ hws, dropWhile_headNonWS _ _ hn]

/-- A rewritten field line still matches its own field. -/
theorem isFieldLine_out (n ws v X : List Char) (hn : headNonWS n = true)
    (hws : ws.all pySpace = true) :
    isFieldLine n (ws ++ n ++ [':', ' '] ++ v ++ X) = true := by
  rw [isFieldLine,
    show ws ++ n ++ [':', ' '] ++ v ++ X = ws ++ n ++ ([':', ' '] ++ v ++ X) from by
      simp [List.append_assoc],
    dropWhile_ws_out _ _ _ hn hws,
    show n ++ ([':', ' '] ++ v ++ X) = (n ++ [':']) ++ (' ' :: (v ++ X)) from by
      simp [List.append_assoc]]
  exact leadsWith_append _ _

/-- A rewritten field line never matches the other field. -/
theorem isFieldLine_out_other (n m ws X : List Char)
    (hws : ws.all pySpace = true)
    (hcross : isFieldLine n (m ++ X) = false) :
    isFieldLine n (ws ++ m ++ X) = false := by
  rw [isFieldLine] at hcross ⊢
  rw [show ws ++ m ++ X = ws ++ (m ++ X) from by simp [List.append_assoc],
    all_ws_dropWhile_append _ _ hws]
  exact hcross

theorem endCR_colon_space (p : Bool) : endCR p [':', ' '] = false := by
  cases p <;> rfl

/-- The CR flag of a rewritten field line equals the original line's. -/
theorem endCR_out (n ws v X : List Char)
    (hv : v.all (fun c => c != '\r') = true) :
    endCR false (ws ++ n ++ [':', ' '] ++ v ++ (if X = ['\r'] then ['\r'] else []))
      = (if X = ['\r'] then true else false) := by
  by_cases hX : X = ['\r']
  · rw [if_pos hX, if_pos hX, endCR_append, endCR_cr_single]
  · rw [if_neg hX, if_neg hX, List.append_nil, endCR_append, endCR_append,
      endCR_colon_space]
    exact endCR_false_of_no_cr _ hv

/-- Rewriting a line is idempotent: a rewritten field line is rewritten
to itself. -/
theorem subLine_stable (n v seg : List Char) (hn : headNonWS n = true)
    (hv : v.all (fun c => c != '\r') = true) :
    subLine n v (subLine n v seg) = subLine n v seg := by
  by_cases hf : isFieldLine n seg = true
  · have hws := all_takeWhile_self pySpace seg
    by_cases he : endCR false seg = true
    · have hinner : subLine n v seg
          = seg.takeWhile pySpace ++ n ++ ([':', ' '] ++ v ++ ['\r']) := by
        rw [subLine, if_pos hf, if_pos he]
        simp [List.append_assoc]
      have hfo : isFieldLine n
          (seg.takeWhile pySpace ++ n ++ ([':', ' '] ++ v ++ ['\r'])) = true := by
        have := isFieldLine_out n (seg.takeWhile pySpace) v ['\r'] hn hws
        simpa [List.append_assoc] using this
      have heo : endCR false
          (seg.takeWhile pySpace ++ n ++ ([':', ' '] ++ v ++ ['\r'])) = true := by
        rw [show seg.takeWhile pySpace ++ n ++ ([':', ' '] ++ v ++ ['\r'])
            = (seg.takeWhile pySpace ++ n ++ ([':', ' '] ++ v)) ++ ['\r'] from by
          simp [List.append_assoc]]
        rw [endCR_append]
        exact endCR_cr_single _
      rw [hinner, subLine, if_pos hfo, takeWhile_ws_out _ _ _ hn hws, heo]
      simp [List.append_assoc]
    · have hinner : subLine n v seg
          = seg.takeWhile pySpace ++ n ++ ([':', ' '] ++ v) := by
        rw [subLine, if_pos hf, if_neg he]
        simp [List.append_assoc]
      have hfo : isFieldLine n
          (seg.takeWhile pySpace ++ n ++ ([':', ' '] ++ v)) = true := by
        have := isFieldLine_out n (seg.takeWhile pySpace) v [] hn hws
        simpa [List.append_assoc] using this
      have heo : endCR false
          (seg.takeWhile pySpace ++ n ++ ([':', ' '] ++ v)) = false := by
        rw [show seg.takeWhile pySpace ++ n ++ ([':', ' '] ++ v)
            = ((seg.takeWhile pySpace ++ n) ++ [':', ' ']) ++ v from by
          simp [List.append_assoc]]
        rw [endCR_append, endCR_append, endCR_colon_space]
        exact endCR_false_of_no_cr _ hv
      rw [hinner, subLine, if_pos hfo, takeWhile_ws_out _ _ _ hn hws, heo]
      simp [List.append_assoc]
  · have hinner : subLine n v seg = seg := by
      rw [subLine, if_neg hf]
    rw [hinner, subLine, if_neg hf]

theorem isFieldLine_subLine_self (n v p : List Char) (hn : headNonWS n = true)
    (hf : isFieldLine n p = true) :
    isFieldLine n (subLine n v p) = true := by
  rw [subLine, if_pos hf]
  have := isFieldLine_out n (p.takeWhile pySpace) v
    (if endCR false p = true then ['\r'] else []) hn (all_takeWhile_self _ _)
  simpa [List.append_assoc] using this

theorem not_both_fields (s : List Char) (h : isFieldLine lnField s = true) :
    isFieldLine ptField s = false := by
  rw [isFieldLine] at h ⊢
  cases hd : s.dropWhile pySpace with
  | nil =>
      rw [hd] at h
      exact absurd h (by decide)
  | cons c q =>
      rw [hd] at h
      have hc : c = 'l' := by
        rw [show lnField ++ [':'] = 'l' :: "ibrary_name:".data from rfl, leadsWith,
          Bool.and_eq_true_iff] at h
        exact (eq_of_beq h.1).symm
      subst hc
      rw [show ptField ++ [':'] = 'p' :: "ipeline_tag:".data from rfl, leadsWith,
        show ('p' == 'l') = false from by decide, Bool.false_and]

theorem not_both_fields' (s : List Char) (h : isFieldLine ptField s = true) :
    isFieldLine lnField s = false := by
  rw [isFieldLine] at h ⊢
  cases hd : s.dropWhile pySpace with
  | nil =>
      rw [hd] at h
      exact absurd h (by decide)
  | cons c q =>
      rw [hd] at h
      have hc : c = 'p' := by
        rw [show ptField ++ [':'] = 'p' :: "ipeline_tag:".data from rfl, leadsWith,
          Bool.and_eq_true_iff] at h
        exact (eq_of_beq h.1).symm
      subst hc
      rw [show lnField ++ [':'] = 'l' :: "ibrary_name:".data from rfl, leadsWith,
        show ('l' == 'p') = false from by decide, Bool.false_and]

theorem subAll_of_linesStable (n v : List Char) :
    ∀ (N : Nat) (h : List Char), h.length ≤ N → linesStable n v h = true →
      subAll n v h = h := by
  intro N
  induction N with
  | zero =>
      intro h hlen _
      have hnil : h = [] := List.length_eq_zero.mp (Nat.le_zero.mp hlen)
      subst hnil
      rfl
  | succ N ih =>
      intro h hlen hst
      rcases split_at_nl h with hno | ⟨p, t, rfl, hp⟩
      · exact subAll_no_nl n v h hno
      · rw [linesStable_split _ _ _ _ hp, Bool.and_eq_true_iff] at hst
        have hsub : subLine n v p = p := by
          simpa using hst.1
        have hlt : t.length ≤ N := by
          rw [List.length_append, List.length_cons] at hlen
          omega
        rw [subAll_split _ _ _ _ hp, hsub, ih t hlt hst.2]

theorem linesStable_subAll (n v : List Char) (hn : headNonWS n = true)
    (hnn : n.all (fun c => c != '\n') = true)
    (hvn : v.all (fun c => c != '\n') = true)
    (hvr : v.all (fun c => c != '\r') = true) :
    ∀ (N : Nat) (h : List Char), h.length ≤ N →
      linesStable n v (subAll n v h) = true := by
  intro N
  induction N with
  | zero =>
      intro h hlen
      have hnil : h = [] := List.length_eq_zero.mp (Nat.le_zero.mp hlen)
      subst hnil
      rfl
  | succ N ih =>
      intro h hlen
      rcases split_at_nl h with hno | ⟨p, t, rfl, hp⟩
      · rw [subAll_no_nl _ _ _ hno]
        exact linesStable_no_nl _ _ _ hno
      · have hpo : (subLine n v p).all (fun c => c != '\n') = true :=
          subLine_no_nl n v p hnn hvn hp
        have hlt : t.length ≤ N := by
          rw [List.length_append, List.length_cons] at hlen
          omega
        rw [subAll_split _ _ _ _ hp, linesStable_split _ _ _ _ hpo,
          Bool.and_eq_true_iff]
        exact ⟨by simp [subLine_stable n v p hn hvr], ih t hlt⟩

theorem linesStable_subAll_other (n v m w : List Char)
    (hmn : m.all (fun c => c != '\n') = true)
    (hwn : w.all (fun c => c != '\n') = true)
    (hcross : ∀ X, isFieldLine n (m ++ X) = false) :
    ∀ (N : Nat) (h : List Char), h.length ≤ N →
      linesStable n v h = true → linesStable n v (subAll m w h) = true := by
  intro N
  induction N with
  | zero =>
      intro h hlen _
      have hnil : h = [] := List.length_eq_zero.mp (Nat.le_zero.mp hlen)
      subst hnil
      rfl
  | succ N ih =>
      intro h hlen hst
      rcases split_at_nl h with hno | ⟨p, t, rfl, hp⟩
      · rw [subAll_no_nl _ _ _ hno]
        exact hst
      · rw [linesStable_split _ _ _ _ hp, Bool.and_eq_true_iff] at hst
        have hpo : (subLine m w p).all (fun c => c != '\n') = true :=
          subLine_no_nl m w p hmn hwn hp
        have hlt : t.length ≤ N := by
          rw [List.length_append, List.length_cons] at hlen
          omega
        rw [subAll_split _ _ _ _ hp, linesStable_split _ _ _ _ hpo,
          Bool.and_eq_true_iff]
        refine ⟨?_, ih t hlt hst.2⟩
        by_cases hfm : isFieldLine m p = true
        · have hout : subLine m w p
              = p.takeWhile pySpace ++ m ++ ([':', ' '] ++ w ++
                  (if endCR false p = true then ['\r'] else [])) := by
            rw [subLine, if_pos hfm]
            simp [List.append_assoc]
          have hnm : isFieldLine n (subLine m w p) = false := by
            rw [hout]
            exact isFieldLine_out_other n m (p.takeWhile pySpace) _
              (all_takeWhile_self _ _) (hcross _)
          have hid : subLine n v (subLine m w p) = subLine m w p := by
            rw [subLine, if_neg (by simp [hnm])]
          simp [hid]
        · have hout : subLine m w p = p := by
            rw [subLine, if_neg hfm]
          rw [hout]
          simpa using hst.1

theorem lsAux_append_endNL (n v : List Char) :
    ∀ (a' cur b : List Char),
      linesStableAux n v cur ((a' ++ ['\n']) ++ b)
        = (linesStableAux n v cur (a' ++ ['\n']) && linesStableAux n v [] b) := by
  intro a'
  induction a' with
  | nil =>
      intro cur b
      simp [linesStableAux, Bool.and_assoc]
  | cons c a'' ih =>
      intro cur b
      simp only [List.cons_append]
      by_cases hc : (c == '\n') = true
      · obtain rfl : c = '\n' := by simpa using hc
        rw [linesStableAux, if_pos (by decide), linesStableAux, if_pos (by decide),
          ih [] b]
        simp [Bool.and_assoc]
      · rw [linesStableAux, if_neg (by simp [hc]), linesStableAux,
          if_neg (by simp [hc]), ih (c :: cur) b]

theorem linesStable_append_endNL (n v a' b : List Char) :
    linesStable n v ((a' ++ ['\n']) ++ b)
      = (linesStable n v (a' ++ ['\n']) && linesStable n v b) :=
  lsAux_append_endNL n v a' [] b

theorem searchAux_append_endNL (n : List Char) (hn0 : isFieldLine n [] = false) :
    ∀ (a' cur b : List Char),
      searchAux n cur ((a' ++ ['\n']) ++ b)
        = (searchAux n cur (a' ++ ['\n']) || searchAux n [] b) := by
  intro a'
  induction a' with
  | nil =>
      intro cur b
      simp [searchAux, hn0, Bool.or_assoc]
  | cons c a'' ih =>
      intro cur b
      simp only [List.cons_append]
      by_cases hc : (c == '\n') = true
      · obtain rfl : c = '\n' := by simpa using hc
        rw [searchAux, if_pos (by decide), searchAux, if_pos (by decide), ih [] b]
        simp [Bool.or_assoc]
      · rw [searchAux, if_neg (by simp [hc]), searchAux, if_neg (by simp [hc]),
          ih (c :: cur) b]

theorem searchField_append_endNL (n a' b : List Char)
    (hn0 : isFieldLine n [] = false) :
    searchField n ((a' ++ ['\n']) ++ b)
      = (searchField n (a' ++ ['\n']) || searchField n b) :=
  searchAux_append_endNL n hn0 a' [] b

theorem searchField_subAll_self (n v : List Char) (hn : headNonWS n = true)
    (hnn : n.all (fun c => c != '\n') = true)
    (hvn : v.all (fun c => c != '\n') = true) :
    ∀ (N : Nat) (h : List Char), h.length ≤ N → searchField n h = true →
      searchField n (subAll n v h) = true := by
  intro N
  induction N with
  | zero =>
      intro h hlen hs
      have hnil : h = [] := List.length_eq_zero.mp (Nat.le_zero.mp hlen)
      subst hnil
      exact hs
  | succ N ih =>
      intro h hlen hs
      rcases split_at_nl h with hno | ⟨p, t, rfl, hp⟩
      · rw [subAll_no_nl _ _ _ hno]
        exact hs
      · have hpo : (subLine n v p).all (fun c => c != '\n') = true :=
          subLine_no_nl n v p hnn hvn hp
        have hlt : t.length ≤ N := by
          rw [List.length_append, List.length_cons] at hlen
          omega
        rw [searchField_split _ _ _ hp] at hs
        rw [subAll_split _ _ _ _ hp, searchField_split _ _ _ hpo]
        rcases Bool.or_eq_true_iff.mp hs with hs | hs
        · exact Bool.or_eq_true_iff.mpr
            (Or.inl (isFieldLine_subLine_self n v p hn hs))
        · exact Bool.or_eq_true_iff.mpr (Or.inr (ih t hlt hs))

theorem searchField_subAll_other (n m w : List Char)
    (hmn : m.all (fun c => c != '\n') = true)
    (hwn : w.all (fun c => c != '\n') = true)
    (hdisj : ∀ s, isFieldLine n s = true → isFieldLine m s = false) :
    ∀ (N : Nat) (h : List Char), h.length ≤ N → searchField n h = true →
      searchField n (subAll m w h) = true := by
  intro N
  induction N with
  | zero =>
      intro h hlen hs
      have hnil : h = [] := List.length_eq_zero.mp (Nat.le_zero.mp hlen)
      subst hnil
      exact hs
  | succ N ih =>
      intro h hlen hs
      rcases split_at_nl h with hno | ⟨p, t, rfl, hp⟩
      · rw [subAll_no_nl _ _ _ hno]
        exact hs
      · have hpo : (subLine m w p).all (fun c => c != '\n') = true :=
          subLine_no_nl m w p hmn hwn hp
        have hlt : t.length ≤ N := by
          rw [List.length_append, List.length_cons] at hlen
          omega
        rw [searchField_split _ _ _ hp] at hs
        rw [subAll_split _ _ _ _ hp, searchField_split _ _ _ hpo]
        rcases Bool.or_eq_true_iff.mp hs with hs | hs
        · have hstay : subLine m w p = p := by
            rw [subLine, if_neg (by simp [hdisj p hs])]
          rw [hstay]
          exact Bool.or_eq_true_iff.mpr (Or.inl hs)
        · exact Bool.or_eq_true_iff.mpr (Or.inr (ih t hlt hs))

theorem subAll_endNL (n v : List Char) :
    ∀ (N : Nat) (a' : List Char), a'.length ≤ N →
      ∃ b', subAll n v (a' ++ ['\n']) = b' ++ ['\n'] := by
  intro N
  induction N with
  | zero =>
      intro a' hlen
      have hnil : a' = [] := List.length_eq_zero.mp (Nat.le_zero.mp hlen)
      subst hnil
      refine ⟨subLine n v [], ?_⟩
      rw [subAll_split n v [] [] rfl]
      rfl
  | succ N ih =>
      intro a' hlen
      rcases split_at_nl a' with hno | ⟨p, t, rfl, hp⟩
      · refine ⟨subLine n v a', ?_⟩
        rw [show a' ++ ['\n'] = a' ++ '\n' :: [] from rfl, subAll_split _ _ _ _ hno]
        rfl
      · have hlt : t.length ≤ N := by
          rw [List.length_append, List.length_cons] at hlen
          omega
        obtain ⟨b'', hb⟩ := ih t hlt
        refine ⟨subLine n v p ++ '\n' :: b'', ?_⟩
        rw [show (p ++ '\n' :: t) ++ ['\n'] = p ++ '\n' :: (t ++ ['\n']) from by
          simp [List.append_assoc], subAll_split _ _ _ _ hp, hb]
        simp [List.append_assoc]

theorem hasTriple_nodash_left (a b : List Char)
    (ha : a.all (fun c => c != '-') = true) :
    hasTriple (a ++ b) = hasTriple b := by
  induction a with
  | nil => rfl
  | cons c a' ih =>
      simp only [List.all_cons, Bool.and_eq_true] at ha
      rw [List.cons_append, hasTriple, ih ha.2,
        show (c == '-') = false from by simpa using ha.1, Bool.false_and,
        Bool.false_or]

theorem leadsWith_dash_nl (X : List Char) :
    leadsWith ['-'] ('\n' :: X) = false := by
  rw [leadsWith, show ('-' == '\n') = false from by decide, Bool.false_and]

theorem leadsWith_dash_field (n X : List Char) (hn : headNonWS n = true)
    (hnd : n.all (fun c => c != '-') = true) :
    leadsWith ['-'] (n ++ X) = false := by
  cases n with
  | nil => exact absurd hn (by simp [headNonWS])
  | cons c rest =>
      simp only [List.all_cons, Bool.and_eq_true] at hnd
      rw [List.cons_append, leadsWith,
        show ('-' == c) = false from by
          have := hnd.1
          by_contra hcon
          have hc : '-' = c := eq_of_beq (by simpa using hcon)
          rw [← hc] at this
          exact absurd this (by decide),
        Bool.false_and]

theorem hasTriple_nl_cons (t : List Char) :
    hasTriple ('\n' :: t) = hasTriple t := by
  rw [hasTriple, show ('\n' == '-') = false from by decide, Bool.false_and,
    Bool.false_or]

theorem crlfAux_no_nl (p : Bool) (s : List Char)
    (hs : s.all (fun c => c != '\n') = true) :
    crlfAux p s = false := by
  induction s generalizing p with
  | nil => rfl
  | cons c t ih =>
      simp only [List.all_cons, Bool.and_eq_true] at hs
      rw [crlfAux, show (c == '\n') = false from by simpa using hs.1,
        Bool.and_false, Bool.false_or]
      exact ih _ hs.2

theorem all_dropWhile_nil (p : Char → Bool) (s : List Char)
    (h : s.all p = true) : s.dropWhile p = [] := by
  induction s with
  | nil => rfl
  | cons c t ih =>
      simp only [List.all_cons, Bool.and_eq_true] at h
      rw [List.dropWhile_cons, if_pos h.1]
      exact ih h.2

theorem leadsWith_field_nil (n : List Char) (hn : headNonWS n = true) :
    leadsWith (n ++ [':']) [] = false := by
  cases n with
  | nil => exact absurd hn (by simp [headNonWS])
  | cons c rest => rfl

/-- A whitespace-only line never matches a field. -/
theorem isFieldLine_ws (n w : List Char) (hn : headNonWS n = true)
    (hw : w.all pySpace = true) : isFieldLine n w = false := by
  rw [isFieldLine, all_dropWhile_nil _ _ hw]
  exact leadsWith_field_nil n hn

/-- The substitution never introduces a `---`: the rewritten lines hold
only whitespace, the dash-free field name, `: `, a value without `---`
and a CR. -/
theorem hasTriple_subAll (n v : List Char) (hn : headNonWS n = true)
    (hnd : n.all (fun c => c != '-') = true)
    (hvt : hasTriple v = false) :
    ∀ (N : Nat) (h : List Char), h.length ≤ N → hasTriple h = false →
      hasTriple (subAll n v h) = false := by
  intro N
  induction N with
  | zero =>
      intro h hlen ht
      have hnil : h = [] := List.length_eq_zero.mp (Nat.le_zero.mp hlen)
      subst hnil
      exact ht
  | succ N ih =>
      intro h hlen ht
      rcases split_at_nl h with hno | ⟨p, t, rfl, hp⟩
      · rw [subAll_no_nl _ _ _ hno]
        exact ht
      · have hlt : t.length ≤ N := by
          rw [List.length_append, List.length_cons] at hlen
          omega
        have htp : hasTriple p = false := by
          by_contra hcon
          rw [hasTriple_mono p ('\n' :: t) (by simpa using hcon)] at ht
          exact absurd ht (by simp)
        have htt : hasTriple t = false := by
          by_contra hcon
          have : hasTriple ('\n' :: t) = true := by
            rw [hasTriple_nl_cons]
            simpa using hcon
          rw [hasTriple_suffix p ('\n' :: t) this] at ht
          exact absurd ht (by simp)
        rw [subAll_split _ _ _ _ hp]
        refine hasTriple_append_safe _ _ ?_ ?_ (leadsWith_dash_nl _)
        · by_cases hf : isFieldLine n p = true
          · rw [subLine, if_pos hf]
            rw [show p.takeWhile pySpace ++ n ++ [':', ' '] ++ v ++
                  (if endCR false p = true then ['\r'] else [])
                = p.takeWhile pySpace ++ (n ++ ([':', ' '] ++ (v ++
                    (if endCR false p = true then ['\r'] else [])))) from by
              simp [List.append_assoc]]
            rw [hasTriple_nodash_left _ _
                (all_ws_no_dash _ (all_takeWhile_self _ _)),
              hasTriple_nodash_left _ _ hnd,
              hasTriple_nodash_left _ _ (by decide)]
            refine hasTriple_append_safe _ _ hvt ?_ ?_
            · by_cases he : endCR false p = true <;> simp [he, hasTriple]
            · by_cases he : endCR false p = true
              · rw [if_pos he, leadsWith,
                  show ('-' == '\r') = false from by decide, Bool.false_and]
              · rw [if_neg he]
                rfl
          · rw [subLine, if_neg hf]
            exact htp
        · rw [hasTriple_nl_cons]
          exact ih t hlt htt

/-- The substitution introduces no CRLF into a CRLF-free interior. -/
theorem crlf_subAll (n v : List Char) (hn : headNonWS n = true)
    (hnn : n.all (fun c => c != '\n') = true)
    (hnr : n.all (fun c => c != '\r') = true)
    (hvn : v.all (fun c => c != '\n') = true)
    (hvr : v.all (fun c => c != '\r') = true) :
    ∀ (N : Nat) (h : List Char), h.length ≤ N → crlfAux false h = false →
      crlfAux false (subAll n v h) = false := by
  intro N
  induction N with
  | zero =>
      intro h hlen hc
      have hnil : h = [] := List.length_eq_zero.mp (Nat.le_zero.mp hlen)
      subst hnil
      exact hc
  | succ N ih =>
      intro h hlen hc
      rcases split_at_nl h with hno | ⟨p, t, rfl, hp⟩
      · rw [subAll_no_nl _ _ _ hno]
        exact hc
      · have hlt : t.length ≤ N := by
          rw [List.length_append, List.length_cons] at hlen
          omega
        rw [crlfAux_append] at hc
        rw [Bool.or_eq_false_iff] at hc
        obtain ⟨hcp, hc2⟩ := hc
        rw [crlfAux] at hc2
        rw [Bool.or_eq_false_iff] at hc2
        obtain ⟨hecr, hct⟩ := hc2
        have hecr' : endCR false p = false := by
          simpa using hecr
        have hct' : crlfAux false t = false := by
          simpa using hct
        rw [subAll_split _ _ _ _ hp, crlfAux_append, Bool.or_eq_false_iff]
        constructor
        · exact crlfAux_no_nl _ _ (subLine_no_nl n v p hnn hvn hp)
        · rw [crlfAux, Bool.or_eq_false_iff]
          constructor
          · rw [Bool.and_eq_false_iff]
            left
            by_cases hf : isFieldLine n p = true
            · rw [subLine, if_pos hf, hecr', if_neg (by simp), List.append_nil]
              rw [show p.takeWhile pySpace ++ n ++ [':', ' '] ++ v
                  = ((p.takeWhile pySpace ++ n) ++ [':', ' ']) ++ v from by
                simp [List.append_assoc]]
              rw [endCR_append, endCR_append, endCR_colon_space]
              exact endCR_false_of_no_cr _ hvr
            · rw [subLine, if_neg hf]
              exact hecr'
          · rw [show ('\n' == '\r') = false from by decide]
            exact ih t hlt hct'

/-- The substitution keeps the interior's leading whitespace-then-newline
shape: the first line is whitespace-only (hence untouched) or keeps its
leading whitespace including the witnessing CR. -/
theorem wsThenNL_subAll (n v : List Char) (hn : headNonWS n = true)
    (h : List Char) (hws : wsThenNL h = true) :
    wsThenNL (subAll n v h) = true := by
  obtain ⟨w, nl, t, rfl, hw, hnl⟩ := (wsThenNL_iff_clean h).mp hws
  have hwp : w.all pySpace = true := all_weaken_left _ _ _ hw
  have hwnl : w.all (fun c => c != '\n') = true := by
    have := all_weaken_right _ _ _ hw
    exact all_weaken_right _ _ _ this
  rcases hnl with rfl | rfl
  · rcases split_at_nl t with hno | ⟨r1, r2, rfl, hr1⟩
    · have hall : (w ++ '\r' :: t).all (fun c => c != '\n') = true := by
        rw [List.all_append, List.all_cons]
        simp [hwnl, hno]
      rw [subAll_no_nl _ _ _ hall]
      exact hws
    · have hp : (w ++ '\r' :: r1).all (fun c => c != '\n') = true := by
        rw [List.all_append, List.all_cons]
        simp [hwnl, hr1]
      rw [show w ++ '\r' :: (r1 ++ '\n' :: r2) = (w ++ '\r' :: r1) ++ '\n' :: r2
          from by simp [List.append_assoc],
        subAll_split _ _ _ _ hp]
      by_cases hf : isFieldLine n (w ++ '\r' :: r1) = true
      · rw [subLine, if_pos hf, takeWhile_ws_append _ _ hwp, List.takeWhile_cons,
          if_pos (by decide)]
        rw [show (w ++ '\r' :: List.takeWhile pySpace r1) ++ n ++ [':', ' '] ++ v ++
              (if endCR false (w ++ '\r' :: r1) = true then ['\r'] else [])
            = (w ++ ['\r']) ++ (List.takeWhile pySpace r1 ++ n ++ [':', ' '] ++ v ++
              (if endCR false (w ++ '\r' :: r1) = true then ['\r'] else [])) from by
          simp [List.append_assoc]]
        rw [show ((w ++ ['\r']) ++ (List.takeWhile pySpace r1 ++ n ++ [':', ' ']
              ++ v ++ (if endCR false (w ++ '\r' :: r1) = true then ['\r'] else [])))
              ++ '\n' :: subAll n v r2
            = (w ++ ['\r']) ++ ((List.takeWhile pySpace r1 ++ n ++ [':', ' ']
              ++ v ++ (if endCR false (w ++ '\r' :: r1) = true then ['\r'] else []))
              ++ '\n' :: subAll n v r2) from by simp [List.append_assoc]]
        exact wsThenNL_append _ _
          ((wsThenNL_iff _).mpr ⟨w, '\r', [], rfl, hwp, Or.inl rfl⟩)
      · rw [subLine, if_neg hf]
        rw [show (w ++ '\r' :: r1) ++ '\n' :: subAll n v r2
            = (w ++ ['\r']) ++ (r1 ++ '\n' :: subAll n v r2) from by
          simp [List.append_assoc]]
        exact wsThenNL_append _ _
          ((wsThenNL_iff _).mpr ⟨w, '\r', [], rfl, hwp, Or.inl rfl⟩)
  · rw [subAll_split _ _ _ _ hwnl, subLine, if_neg (by simp [isFieldLine_ws n w hn hwp])]
    exact (wsThenNL_iff _).mpr ⟨w, '\n', _, rfl, hwp, Or.inr rfl⟩

theorem crlfAux_mid (B : List Char) :
    ∀ (p : Bool) (A : List Char), crlfAux p (A ++ '\r' :: '\n' :: B) = true := by
  intro p A
  induction A generalizing p with
  | nil =>
      rw [List.nil_append, crlfAux, crlfAux]
      simp
  | cons c t ih =>
      rw [List.cons_append, crlfAux, ih]
      simp

theorem containsCRLF_mid (A B : List Char) :
    containsCRLF (A ++ '\r' :: '\n' :: B) = true :=
  crlfAux_mid B false A

theorem crlfAux_state_drop (q : Bool) (s : List Char)
    (h : crlfAux q s = false) : crlfAux false s = false := by
  cases s with
  | nil => rfl
  | cons c t =>
      rw [crlfAux, Bool.or_eq_false_iff] at h
      rw [crlfAux, Bool.false_and, Bool.false_or]
      exact h.2

theorem crlfAux_split_false (a b : List Char)
    (h : crlfAux false (a ++ b) = false) :
    crlfAux false a = false ∧ crlfAux false b = false := by
  rw [crlfAux_append, Bool.or_eq_false_iff] at h
  exact ⟨h.1, crlfAux_state_drop _ _ h.2⟩

/-- A text in which the field never matches is trivially line-stable:
`re.sub` rewrites none of its lines. -/
theorem linesStable_of_not_search (n v : List Char) :
    ∀ (N : Nat) (h : List Char), h.length ≤ N → searchField n h = false →
      linesStable n v h = true := by
  intro N
  induction N with
  | zero =>
      intro h hlen _
      have hnil : h = [] := List.length_eq_zero.mp (Nat.le_zero.mp hlen)
      subst hnil
      rfl
  | succ N ih =>
      intro h hlen hs
      rcases split_at_nl h with hno | ⟨p, t, rfl, hp⟩
      · exact linesStable_no_nl _ _ _ hno
      · have hlt : t.length ≤ N := by
          rw [List.length_append, List.length_cons] at hlen
          omega
        rw [searchField_split _ _ _ hp, Bool.or_eq_false_iff] at hs
        rw [linesStable_split _ _ _ _ hp, Bool.and_eq_true_iff]
        constructor
        · rw [subLine, if_neg (by simp [hs.1])]
          simp
        · exact ih t hlt hs.2

/-- A freshly appended field line is a fixpoint of its own rewrite. -/
theorem subLine_fresh (n v cr : List Char) (hn : headNonWS n = true)
    (hvr : v.all (fun c => c != '\r') = true)
    (hcr : cr = [] ∨ cr = ['\r']) :
    subLine n v (n ++ [':', ' '] ++ v ++ cr) = n ++ [':', ' '] ++ v ++ cr := by
  have hf : isFieldLine n (n ++ [':', ' '] ++ v ++ cr) = true := by
    have := isFieldLine_out n [] v cr hn rfl
    simpa using this
  have htw : (n ++ [':', ' '] ++ v ++ cr).takeWhile pySpace = [] := by
    rw [show n ++ [':', ' '] ++ v ++ cr = n ++ ([':', ' '] ++ v ++ cr) from by
      simp [List.append_assoc]]
    exact takeWhile_headNonWS _ _ hn
  rcases hcr with rfl | rfl
  · have he : endCR false (n ++ [':', ' '] ++ v ++ ([] : List Char)) = false := by
      rw [List.append_nil, show n ++ [':', ' '] ++ v = (n ++ [':', ' ']) ++ v from by
        simp [List.append_assoc], endCR_append, endCR_append, endCR_colon_space]
      exact endCR_false_of_no_cr _ hvr
    rw [subLine, if_pos hf, htw, he]
    simp
  · have he : endCR false (n ++ [':', ' '] ++ v ++ ['\r']) = true := by
      rw [show n ++ [':', ' '] ++ v ++ ['\r'] = (n ++ [':', ' '] ++ v) ++ ['\r'] from by
        simp [List.append_assoc], endCR_append]
      exact endCR_cr_single _
    rw [subLine, if_pos hf, htw, he]
    simp

/-- The upsert of a field keeps the interior newline-terminated. -/
theorem upsertFieldV_endNL (n v le h : List Char)
    (hle : le = ['\n'] ∨ le = ['\r', '\n'])
    (hend : ∃ h', h = h' ++ ['\n']) :
    ∃ h2, upsertFieldV n v le h = h2 ++ ['\n'] := by
  rw [upsertFieldV]
  by_cases hs : searchField n h = true
  · rw [if_pos hs]
    obtain ⟨h', rfl⟩ := hend
    exact subAll_endNL n v h'.length h' (Nat.le_refl _)
  · rw [if_neg hs]
    rcases hle with rfl | rfl
    · exact ⟨h ++ n ++ [':', ' '] ++ v, by simp [List.append_assoc]⟩
    · exact ⟨h ++ n ++ [':', ' '] ++ v ++ ['\r'], by simp [List.append_assoc]⟩

theorem applyEditV_endNL (n : List Char) (val : Option (List Char)) (le h : List Char)
    (hle : le = ['\n'] ∨ le = ['\r', '\n'])
    (hend : ∃ h', h = h' ++ ['\n']) :
    ∃ h2, applyEditV n val le h = h2 ++ ['\n'] := by
  cases val with
  | none => exact hend
  | some v => exact upsertFieldV_endNL n v le h hle hend

/-- The upsert keeps the interior starting with whitespace-then-newline
(what header detection needs). -/
theorem upsertFieldV_wsThenNL (n v le h : List Char) (hn : headNonWS n = true)
    (hws : wsThenNL h = true) :
    wsThenNL (upsertFieldV n v le h) = true := by
  rw [upsertFieldV]
  by_cases hs : searchField n h = true
  · rw [if_pos hs]
    exact wsThenNL_subAll n v hn h hws
  · rw [if_neg hs,
      show h ++ n ++ [':', ' '] ++ v ++ le = h ++ (n ++ [':', ' '] ++ v ++ le) from by
        simp [List.append_assoc]]
    exact wsThenNL_append _ _ hws

theorem applyEditV_wsThenNL (n : List Char) (val : Option (List Char)) (le h : List Char)
    (hn : headNonWS n = true) (hws : wsThenNL h = true) :
    wsThenNL (applyEditV n val le h) = true := by
  cases val with
  | none => exact hws
  | some v => exact upsertFieldV_wsThenNL n v le h hn hws

/-- The upsert introduces no `---` into a `---`-free interior when the
value holds none. -/
theorem upsertFieldV_hasTriple (n v le h : List Char) (hn : headNonWS n = true)
    (hnd : n.all (fun c => c != '-') = true)
    (hvt : hasTriple v = false)
    (hle : le = ['\n'] ∨ le = ['\r', '\n'])
    (ht : hasTriple h = false) :
    hasTriple (upsertFieldV n v le h) = false := by
  rw [upsertFieldV]
  by_cases hs : searchField n h = true
  · rw [if_pos hs]
    exact hasTriple_subAll n v hn hnd hvt h.length h (Nat.le_refl _) ht
  · rw [if_neg hs,
      show h ++ n ++ [':', ' '] ++ v ++ le
          = h ++ (n ++ ([':', ' '] ++ (v ++ le))) from by simp [List.append_assoc]]
    refine hasTriple_append_safe _ _ ht ?_ (leadsWith_dash_field n _ hn hnd)
    rw [hasTriple_nodash_left _ _ hnd, hasTriple_nodash_left _ _ (by decide)]
    refine hasTriple_append_safe _ _ hvt ?_ ?_
    · rcases hle with rfl | rfl <;> decide
    · rcases hle with rfl | rfl <;> decide

theorem applyEditV_hasTriple (n : List Char) (val : Option (List Char)) (le h : List Char)
    (hn : headNonWS n = true)
    (hnd : n.all (fun c => c != '-') = true)
    (hvt : optNoTriple val = true)
    (hle : le = ['\n'] ∨ le = ['\r', '\n'])
    (ht : hasTriple h = false) :
    hasTriple (applyEditV n val le h) = false := by
  cases val with
  | none => exact ht
  | some v =>
      simp only [optNoTriple, Bool.not_eq_true'] at hvt
      exact upsertFieldV_hasTriple n v le h hn hnd hvt hle ht

/-- After the upsert the field is present: a rewritten line still
matches, an appended line matches. -/
theorem upsertFieldV_search_self (n v le h : List Char) (hn : headNonWS n = true)
    (hnn : n.all (fun c => c != '\n') = true)
    (hvn : v.all (fun c => c != '\n') = true)
    (hle : le = ['\n'] ∨ le = ['\r', '\n'])
    (hend : ∃ h', h = h' ++ ['\n']) :
    searchField n (upsertFieldV n v le h) = true := by
  rw [upsertFieldV]
  by_cases hs : searchField n h = true
  · rw [if_pos hs]
    exact searchField_subAll_self n v hn hnn hvn h.length h (Nat.le_refl _) hs
  · rw [if_neg hs]
    obtain ⟨h', rfl⟩ := hend
    rw [show (h' ++ ['\n']) ++ n ++ [':', ' '] ++ v ++ le
        = (h' ++ ['\n']) ++ (n ++ [':', ' '] ++ v ++ le) from by
      simp [List.append_assoc]]
    rw [searchField_append_endNL n h' _ (isFieldLine_nil_false n hn),
      Bool.or_eq_true_iff]
    right
    rcases hle with rfl | rfl
    · rw [show n ++ [':', ' '] ++ v ++ ['\n'] = (n ++ [':', ' '] ++ v) ++ '\n' :: [] from by
        simp [List.append_assoc],
        searchField_split n _ _ (by simp [List.all_append, hnn, hvn]),
        Bool.or_eq_true_iff]
      left
      have := isFieldLine_out n [] v [] hn rfl
      simpa using this
    · rw [show n ++ [':', ' '] ++ v ++ ['\r', '\n']
          = (n ++ [':', ' '] ++ v ++ ['\r']) ++ '\n' :: [] from by
        simp [List.append_assoc],
        searchField_split n _ _ (by simp [List.all_append, hnn, hvn]),
        Bool.or_eq_true_iff]
      left
      have := isFieldLine_out n [] v ['\r'] hn rfl
      simpa using this

/-- After the upsert every line is a fixpoint of the field's own
rewrite. -/
theorem upsertFieldV_stable_self (n v le h : List Char) (hn : headNonWS n = true)
    (hnn : n.all (fun c => c != '\n') = true)
    (hvn : v.all (fun c => c != '\n') = true)
    (hvr : v.all (fun c => c != '\r') = true)
    (hle : le = ['\n'] ∨ le = ['\r', '\n'])
    (hend : ∃ h', h = h' ++ ['\n']) :
    linesStable n v (upsertFieldV n v le h) = true := by
  rw [upsertFieldV]
  by_cases hs : searchField n h = true
  · rw [if_pos hs]
    exact linesStable_subAll n v hn hnn hvn hvr h.length h (Nat.le_refl _)
  · rw [if_neg hs]
    obtain ⟨h', rfl⟩ := hend
    rw [show (h' ++ ['\n']) ++ n ++ [':', ' '] ++ v ++ le
        = (h' ++ ['\n']) ++ (n ++ [':', ' '] ++ v ++ le) from by
      simp [List.append_assoc],
      linesStable_append_endNL, Bool.and_eq_true_iff]
    constructor
    · exact linesStable_of_not_search n v (h' ++ ['\n']).length _ (Nat.le_refl _)
        (by simpa using hs)
    · rcases hle with rfl | rfl
      · rw [show n ++ [':', ' '] ++ v ++ ['\n'] = (n ++ [':', ' '] ++ v) ++ '\n' :: [] from by
          simp [List.append_assoc],
          linesStable_split n v _ _ (by simp [List.all_append, hnn, hvn]),
          Bool.and_eq_true_iff]
        refine ⟨?_, rfl⟩
        have := subLine_fresh n v [] hn hvr (Or.inl rfl)
        simp only [List.append_nil, List.append_assoc, List.cons_append,
          List.nil_append] at this
        simp [this]
      · rw [show n ++ [':', ' '] ++ v ++ ['\r', '\n']
            = (n ++ [':', ' '] ++ v ++ ['\r']) ++ '\n' :: [] from by
          simp [List.append_assoc],
          linesStable_split n v _ _ (by simp [List.all_append, hnn, hvn]),
          Bool.and_eq_true_iff]
        refine ⟨?_, rfl⟩
        have := subLine_fresh n v ['\r'] hn hvr (Or.inr rfl)
        simp only [List.append_assoc, List.cons_append, List.nil_append] at this
        simp [this]

/-- Editing the other field keeps this field present. -/
theorem upsertFieldV_search_other (n m w le h : List Char)
    (hmn : m.all (fun c => c != '\n') = true)
    (hwn : w.all (fun c => c != '\n') = true)
    (hn0 : isFieldLine n [] = false)
    (hdisj : ∀ s, isFieldLine n s = true → isFieldLine m s = false)
    (hend : ∃ h', h = h' ++ ['\n'])
    (hs : searchField n h = true) :
    searchField n (upsertFieldV m w le h) = true := by
  rw [upsertFieldV]
  by_cases hsm : searchField m h = true
  · rw [if_pos hsm]
    exact searchField_subAll_other n m w hmn hwn hdisj h.length h (Nat.le_refl _) hs
  · rw [if_neg hsm]
    obtain ⟨h', rfl⟩ := hend
    rw [show (h' ++ ['\n']) ++ m ++ [':', ' '] ++ w ++ le
        = (h' ++ ['\n']) ++ (m ++ [':', ' '] ++ w ++ le) from by
      simp [List.append_assoc],
      searchField_append_endNL n h' _ hn0, Bool.or_eq_true_iff]
    left
    exact hs

/-- Editing the other field keeps this field's lines stable. -/
theorem upsertFieldV_stable_other (n v m w le h : List Char)
    (hmn : m.all (fun c => c != '\n') = true)
    (hwn : w.all (fun c => c != '\n') = true)
    (hcross : ∀ X, isFieldLine n (m ++ X) = false)
    (hle : le = ['\n'] ∨ le = ['\r', '\n'])
    (hend : ∃ h', h = h' ++ ['\n'])
    (hst : linesStable n v h = true) :
    linesStable n v (upsertFieldV m w le h) = true := by
  rw [upsertFieldV]
  by_cases hsm : searchField m h = true
  · rw [if_pos hsm]
    exact linesStable_subAll_other n v m w hmn hwn hcross h.length h
      (Nat.le_refl _) hst
  · rw [if_neg hsm]
    obtain ⟨h', rfl⟩ := hend
    rw [show (h' ++ ['\n']) ++ m ++ [':', ' '] ++ w ++ le
        = (h' ++ ['\n']) ++ (m ++ [':', ' '] ++ w ++ le) from by
      simp [List.append_assoc],
      linesStable_append_endNL, Bool.and_eq_true_iff]
    refine ⟨hst, ?_⟩
    rcases hle with rfl | rfl
    · rw [show m ++ [':', ' '] ++ w ++ ['\n'] = (m ++ [':', ' '] ++ w) ++ '\n' :: [] from by
        simp [List.append_assoc],
        linesStable_split n v _ _ (by simp [List.all_append, hmn, hwn]),
        Bool.and_eq_true_iff]
      refine ⟨?_, rfl⟩
      rw [subLine, if_neg (by
        have := hcross ([':', ' '] ++ w)
        simp only [List.append_assoc, List.cons_append, List.nil_append] at this
        simp [this])]
      simp
    · rw [show m ++ [':', ' '] ++ w ++ ['\r', '\n']
          = (m ++ [':', ' '] ++ w ++ ['\r']) ++ '\n' :: [] from by
        simp [List.append_assoc],
        linesStable_split n v _ _ (by simp [List.all_append, hmn, hwn]),
        Bool.and_eq_true_iff]
      refine ⟨?_, rfl⟩
      rw [subLine, if_neg (by
        have := hcross ([':', ' '] ++ w ++ ['\r'])
        simp only [List.append_assoc, List.cons_append, List.nil_append] at this
        simp [this])]
      simp

/-- In LF mode the upsert introduces no CRLF. -/
theorem upsertFieldV_no_crlf (n v h : List Char) (hn : headNonWS n = true)
    (hnn : n.all (fun c => c != '\n') = true)
    (hnr : n.all (fun c => c != '\r') = true)
    (hvn : v.all (fun c => c != '\n') = true)
    (hvr : v.all (fun c => c != '\r') = true)
    (hc : crlfAux false h = false) :
    crlfAux false (upsertFieldV n v ['\n'] h) = false := by
  rw [upsertFieldV]
  by_cases hs : searchField n h = true
  · rw [if_pos hs]
    exact crlf_subAll n v hn hnn hnr hvn hvr h.length h (Nat.le_refl _) hc
  · rw [if_neg hs,
      show h ++ n ++ [':', ' '] ++ v ++ ['\n']
          = h ++ (n ++ [':', ' '] ++ v ++ ['\n']) from by simp [List.append_assoc],
      crlfAux_append, Bool.or_eq_false_iff]
    refine ⟨hc, ?_⟩
    cases n with
    | nil => exact absurd hn (by simp [headNonWS])
    | cons c nt =>
        simp only [List.all_cons, Bool.and_eq_true] at hnn hnr
        rw [show (c :: nt) ++ [':', ' '] ++ v ++ ['\n']
            = c :: (nt ++ [':', ' '] ++ v ++ ['\n']) from by simp,
          crlfAux, Bool.or_eq_false_iff]
        constructor
        · rw [show (c == '\n') = false from by simpa using hnn.1, Bool.and_false]
        · rw [show (c == '\r') = false from by simpa using hnr.1]
          exact crlfAux_false_of_no_cr _ (by
            simp +decide [List.all_append, hnr.2, hvr])

theorem applyEditV_no_crlf (n : List Char) (val : Option (List Char)) (h : List Char)
    (hn : headNonWS n = true)
    (hnn : n.all (fun c => c != '\n') = true)
    (hnr : n.all (fun c => c != '\r') = true)
    (hval : optAll (fun x => (x != '\n') && (x != '\r')) val = true)
    (hc : crlfAux false h = false) :
    crlfAux false (applyEditV n val ['\n'] h) = false := by
  cases val with
  | none => exact hc
  | some v =>
      simp only [optAll] at hval
      exact upsertFieldV_no_crlf n v h hn hnn hnr
        (all_weaken_left _ _ _ hval) (all_weaken_right _ _ _ hval) hc

theorem optAll_weaken_bs (val : Option (List Char))
    (h : optAll (fun x => (x != '\n') && ((x != '\r') && (x != '\\'))) val = true) :
    optAll (fun x => x != '\\') val = true := by
  cases val with
  | none => rfl
  | some v =>
      have h' : v.all (fun x => (x != '\n') && ((x != '\r') && (x != '\\'))) = true := h
      show v.all _ = true
      exact all_weaken_right _ _ _ (all_weaken_right _ _ _ h')

theorem optAll_weaken_nr (val : Option (List Char))
    (h : optAll (fun x => (x != '\n') && ((x != '\r') && (x != '\\'))) val = true) :
    optAll (fun x => (x != '\n') && (x != '\r')) val = true := by
  cases val with
  | none => rfl
  | some v =>
      have h' : v.all (fun x => (x != '\n') && ((x != '\r') && (x != '\\'))) = true := h
      show v.all _ = true
      rw [List.all_eq_true] at h' ⊢
      intro x hx
      have hx' := h' x hx
      rw [Bool.and_eq_true_iff] at hx'
      rw [Bool.and_eq_true_iff]
      exact ⟨hx'.1, (Bool.and_eq_true_iff.mp hx'.2).1⟩

theorem hasTriple_prefix_false (a b : List Char)
    (h : hasTriple (a ++ b) = false) : hasTriple a = false := by
  by_contra hc
  rw [hasTriple_mono a b (by simpa using hc)] at h
  exact absurd h (by simp)

theorem lineEnding_out_crlf (H2 R : List Char) :
    lineEnding ("---".data ++ H2 ++ "---".data ++ ['\r', '\n'] ++ R) = ['\r', '\n'] := by
  rw [lineEnding, if_pos (by
    rw [show "---".data ++ H2 ++ "---".data ++ ['\r', '\n'] ++ R
        = ("---".data ++ H2 ++ "---".data) ++ '\r' :: '\n' :: R from by
      simp [List.append_assoc]]
    exact containsCRLF_mid _ _)]

theorem lineEnding_out_lf (H2 R : List Char)
    (hH : crlfAux false H2 = false)
    (hR : crlfAux false R = false)
    (hend : ∃ h', H2 = h' ++ ['\n']) :
    lineEnding ("---".data ++ H2 ++ "---".data ++ ['\n'] ++ R) = ['\n'] := by
  have hc : containsCRLF ("---".data ++ H2 ++ "---".data ++ ['\n'] ++ R) = false := by
    rw [show "---".data ++ H2 ++ "---".data ++ ['\n'] ++ R
        = "---".data ++ (H2 ++ (['-', '-', '-', '\n'] ++ R)) from by
      simp [dashes_eq, List.append_assoc]]
    rw [containsCRLF, crlfAux_append, Bool.or_eq_false_iff]
    refine ⟨by decide, ?_⟩
    rw [show endCR false ("---".data) = false from by decide, crlfAux_append,
      Bool.or_eq_false_iff]
    refine ⟨hH, ?_⟩
    obtain ⟨h', rfl⟩ := hend
    rw [show endCR false (h' ++ ['\n']) = false from by rw [endCR_append]; rfl,
      crlfAux_append, Bool.or_eq_false_iff]
    refine ⟨by decide, ?_⟩
    rw [show endCR false ['-', '-', '-', '\n'] = false from by decide]
    exact hR
  rw [lineEnding, if_neg (by rw [hc]; simp)]

/-- A well-shaped patched document is a fixpoint of the patch: the
header is redetected, the closing delimiter is refound exactly (the
interior holds no `---`), the greedy whitespace strip returns the
already-stripped body unchanged, and each requested field sits on
stable lines with the field present, so both upserts are the
identity. -/
theorem updateMetadata_fixpoint (pt ln : Option (List Char)) (H R le : List Char)
    (hf : (falsy pt && falsy ln) = false)
    (hbpt : optAll (fun x => x != '\\') pt = true)
    (hbln : optAll (fun x => x != '\\') ln = true)
    (hle : le = ['\n'] ∨ le = ['\r', '\n'])
    (hws : wsThenNL H = true)
    (hend : ∃ h', H = h' ++ ['\n'])
    (htr : hasTriple H = false)
    (hR : R.dropWhile pySpace = R)
    (hle2 : lineEnding ("---".data ++ H ++ "---".data ++ le ++ R) = le)
    (hpt : ∀ v, pt = some v →
      searchField ptField H = true ∧ linesStable ptField v H = true)
    (hln : ∀ w, ln = some w →
      searchField lnField H = true ∧ linesStable lnField w H = true) :
    updateMetadata pt ln ("---".data ++ H ++ "---".data ++ le ++ R)
      = .ok ("---".data ++ H ++ "---".data ++ le ++ R) := by
  have hcontent : "---".data ++ H ++ "---".data ++ le ++ R
      = '-' :: '-' :: '-' :: (H ++ '-' :: '-' :: '-' :: (le ++ R)) := by
    simp [dashes_eq, List.append_assoc]
  have hh : hasYamlHeader ("---".data ++ H ++ "---".data ++ le ++ R) = true := by
    rw [hcontent]
    show wsThenNL (H ++ '-' :: '-' :: '-' :: (le ++ R)) = true
    exact wsThenNL_append _ _ hws
  have htr2 : hasTriple (H ++ ['-', '-']) = false := by
    obtain ⟨h', he⟩ := hend
    rw [he]
    have hp : hasTriple h' = false := by
      rw [he] at htr
      exact hasTriple_prefix_false _ _ htr
    rw [show (h' ++ ['\n']) ++ ['-', '-'] = h' ++ '\n' :: ['-', '-'] from by simp]
    exact hasTriple_append_safe _ _ hp (by decide) (by decide)
  have hhm : headerMatch ("---".data ++ H ++ "---".data ++ le ++ R)
      = some (H, R) := by
    rw [hcontent]
    show (findClose (H ++ '-' :: '-' :: '-' :: (le ++ R))).map
        (fun p => (p.1, p.2.dropWhile pySpace)) = _
    rw [findClose_append _ _ htr2, Option.map_some',
      all_ws_dropWhile_append le R (by rcases hle with rfl | rfl <;> decide), hR]
  rw [updateMetadata_header_no_bs pt ln _ H R hf hh hhm hbpt hbln, hle2]
  have hE1 : applyEditV ptField pt le H = H := by
    cases pt with
    | none => rfl
    | some v =>
        obtain ⟨hs, hst⟩ := hpt v rfl
        show upsertFieldV ptField v le H = H
        rw [upsertFieldV, if_pos hs]
        exact subAll_of_linesStable ptField v H.length H (Nat.le_refl _) hst
  rw [hE1]
  have hE2 : applyEditV lnField ln le H = H := by
    cases ln with
    | none => rfl
    | some w =>
        obtain ⟨hs, hst⟩ := hln w rfl
        show upsertFieldV lnField w le H = H
        rw [upsertFieldV, if_pos hs]
        exact subAll_of_linesStable lnField w H.length H (Nat.le_refl _) hst
  rw [hE2]

/-- After one run the edited interior satisfies everything the fixpoint
lemma asks of it: it still starts with whitespace-then-newline, still
ends in a newline, holds no `---`, and each requested field is present
on lines the rewrite fixes. -/
theorem run1_interior_facts (pt ln : Option (List Char)) (le h0 : List Char)
    (hbpt : optAll (fun x => (x != '\n') && ((x != '\r') && (x != '\\'))) pt = true)
    (hbln : optAll (fun x => (x != '\n') && ((x != '\r') && (x != '\\'))) ln = true)
    (htpt : optNoTriple pt = true) (htln : optNoTriple ln = true)
    (hle : le = ['\n'] ∨ le = ['\r', '\n'])
    (hws : wsThenNL h0 = true)
    (hend : ∃ h', h0 = h' ++ ['\n'])
    (htr : hasTriple h0 = false) :
    wsThenNL (applyEditV lnField ln le (applyEditV ptField pt le h0)) = true ∧
    (∃ h', applyEditV lnField ln le (applyEditV ptField pt le h0) = h' ++ ['\n']) ∧
    hasTriple (applyEditV lnField ln le (applyEditV ptField pt le h0)) = false ∧
    (∀ v, pt = some v →
      searchField ptField (applyEditV lnField ln le (applyEditV ptField pt le h0)) = true ∧
      linesStable ptField v (applyEditV lnField ln le (applyEditV ptField pt le h0)) = true) ∧
    (∀ w, ln = some w →
      searchField lnField (applyEditV lnField ln le (applyEditV ptField pt le h0)) = true ∧
      linesStable lnField w (applyEditV lnField ln le (applyEditV ptField pt le h0)) = true) := by
  have f1ws : wsThenNL (applyEditV ptField pt le h0) = true :=
    applyEditV_wsThenNL _ _ _ _ (by decide) hws
  have f1end : ∃ h', applyEditV ptField pt le h0 = h' ++ ['\n'] :=
    applyEditV_endNL _ _ _ _ hle hend
  have f1tr : hasTriple (applyEditV ptField pt le h0) = false :=
    applyEditV_hasTriple _ _ _ _ (by decide) (by decide) htpt hle htr
  refine ⟨applyEditV_wsThenNL _ _ _ _ (by decide) f1ws,
    applyEditV_endNL _ _ _ _ hle f1end,
    applyEditV_hasTriple _ _ _ _ (by decide) (by decide) htln hle f1tr,
    ?_, ?_⟩
  · intro v hv
    subst hv
    have hv' : v.all (fun x => (x != '\n') && ((x != '\r') && (x != '\\'))) = true := hbpt
    have hvn : v.all (fun c => c != '\n') = true := all_weaken_left _ _ _ hv'
    have hvr : v.all (fun c => c != '\r') = true :=
      all_weaken_left _ _ _ (all_weaken_right _ _ _ hv')
    have s1 : searchField ptField (applyEditV ptField (some v) le h0) = true :=
      upsertFieldV_search_self _ _ _ _ (by decide) (by decide) hvn hle hend
    have st1 : linesStable ptField v (applyEditV ptField (some v) le h0) = true :=
      upsertFieldV_stable_self _ _ _ _ (by decide) (by decide) hvn hvr hle hend
    cases ln with
    | none => exact ⟨s1, st1⟩
    | some w =>
        have hw' : w.all (fun x => (x != '\n') && ((x != '\r') && (x != '\\'))) = true := hbln
        have hwn : w.all (fun c => c != '\n') = true := all_weaken_left _ _ _ hw'
        exact ⟨upsertFieldV_search_other ptField lnField w le _ (by decide) hwn
            (by decide) not_both_fields' f1end s1,
          upsertFieldV_stable_other ptField v lnField w le _ (by decide) hwn
            not_ptLine_lnField hle f1end st1⟩
  · intro w hw
    subst hw
    have hw' : w.all (fun x => (x != '\n') && ((x != '\r') && (x != '\\'))) = true := hbln
    have hwn : w.all (fun c => c != '\n') = true := all_weaken_left _ _ _ hw'
    have hwr : w.all (fun c => c != '\r') = true :=
      all_weaken_left _ _ _ (all_weaken_right _ _ _ hw')
    exact ⟨upsertFieldV_search_self _ _ _ _ (by decide) (by decide) hwn hle f1end,
      upsertFieldV_stable_self _ _ _ _ (by decide) (by decide) hwn hwr hle f1end⟩

theorem lineEnding_cases (c : List Char) :
    lineEnding c = ['\n'] ∨ lineEnding c = ['\r', '\n'] := by
  rw [lineEnding]
  by_cases hcr : containsCRLF c = true
  · rw [if_pos hcr]
    exact Or.inr rfl
  · rw [if_neg hcr]
    exact Or.inl rfl

/-- A freshly appended pipeline-tag line never matches the library-name
search. -/
theorem searchField_ptBlock_ln (v le : List Char)
    (hvn : v.all (fun c => c != '\n') = true)
    (hle : le = ['\n'] ∨ le = ['\r', '\n']) :
    searchField lnField (ptField ++ [':', ' '] ++ v ++ le) = false := by
  rcases hle with rfl | rfl
  · rw [show ptField ++ [':', ' '] ++ v ++ ['\n']
        = (ptField ++ [':', ' '] ++ v) ++ '\n' :: [] from by simp [List.append_assoc],
      searchField_split _ _ _ (by simp +decide [List.all_append, hvn]),
      Bool.or_eq_false_iff]
    constructor
    · have := not_lnLine_ptField ([':', ' '] ++ v)
      simpa [List.append_assoc] using this
    · decide
  · rw [show ptField ++ [':', ' '] ++ v ++ ['\r', '\n']
        = (ptField ++ [':', ' '] ++ v ++ ['\r']) ++ '\n' :: [] from by
      simp [List.append_assoc],
      searchField_split _ _ _ (by simp +decide [List.all_append, hvn]),
      Bool.or_eq_false_iff]
    constructor
    · have := not_lnLine_ptField ([':', ' '] ++ v ++ ['\r'])
      simpa [List.append_assoc] using this
    · decide

/-- The synthesized header interior (lines 235-240) is what the two
upserts produce from the bare first line-ending: each search fails, so
each present field is appended in order. -/
theorem synth_interior_as_edits (pt ln : Option (List Char)) (le : List Char)
    (hbpt : optAll (fun x => (x != '\n') && ((x != '\r') && (x != '\\'))) pt = true)
    (hle : le = ['\n'] ∨ le = ['\r', '\n']) :
    "---".data ++ applyEditV lnField ln le (applyEditV ptField pt le le)
        ++ "---".data ++ le
      = synthHeader pt ln le := by
  rw [synthHeader.eq_def]
  have hsp : searchField ptField le = false := by
    rcases hle with rfl | rfl <;> decide
  cases pt with
  | none =>
      cases ln with
      | none => simp [applyEditV]
      | some w =>
          show "---".data ++ upsertFieldV lnField w le le ++ "---".data ++ le = _
          have hsl : searchField lnField le = false := by
            rcases hle with rfl | rfl <;> decide
          rw [upsertFieldV, if_neg (by simp [hsl])]
          simp [List.append_assoc]
  | some v =>
      have hv' : v.all (fun x => (x != '\n') && ((x != '\r') && (x != '\\'))) = true := hbpt
      have hvn : v.all (fun c => c != '\n') = true := all_weaken_left _ _ _ hv'
      have hE1 : applyEditV ptField (some v) le le
          = le ++ (ptField ++ [':', ' '] ++ v ++ le) := by
        show upsertFieldV ptField v le le = _
        rw [upsertFieldV, if_neg (by simp [hsp])]
        simp [List.append_assoc]
      rw [hE1]
      cases ln with
      | none => simp [applyEditV, List.append_assoc]
      | some w =>
          show "---".data ++
              upsertFieldV lnField w le (le ++ (ptField ++ [':', ' '] ++ v ++ le))
              ++ "---".data ++ le = _
          have hsl2 : searchField lnField (le ++ (ptField ++ [':', ' '] ++ v ++ le))
              = false := by
            rcases hle with rfl | rfl
            · rw [show ['\n'] ++ (ptField ++ [':', ' '] ++ v ++ ['\n'])
                  = (([] : List Char) ++ ['\n']) ++ (ptField ++ [':', ' '] ++ v ++ ['\n'])
                  from by simp,
                searchField_append_endNL lnField [] _ (by decide),
                Bool.or_eq_false_iff]
              exact ⟨by decide, searchField_ptBlock_ln v ['\n'] hvn (Or.inl rfl)⟩
            · rw [show ['\r', '\n'] ++ (ptField ++ [':', ' '] ++ v ++ ['\r', '\n'])
                  = (['\r'] ++ ['\n']) ++ (ptField ++ [':', ' '] ++ v ++ ['\r', '\n'])
                  from by simp,
                searchField_append_endNL lnField ['\r'] _ (by decide),
                Bool.or_eq_false_iff]
              exact ⟨by decide, searchField_ptBlock_ln v ['\r', '\n'] hvn (Or.inr rfl)⟩
          simp only [List.append_assoc, List.cons_append, List.nil_append] at hsl2
          rw [upsertFieldV, if_neg (by simp [hsl2])]
          simp [List.append_assoc]

/-- Second run on the output of a headerless-branch run reproduces it. -/
theorem c6_aux_headerless (pt ln : Option (List Char)) (c o1 : List Char)
    (hf : (falsy pt && falsy ln) = false)
    (hbpt : optAll (fun x => (x != '\n') && ((x != '\r') && (x != '\\'))) pt = true)
    (hbln : optAll (fun x => (x != '\n') && ((x != '\r') && (x != '\\'))) ln = true)
    (htpt : optNoTriple pt = true) (htln : optNoTriple ln = true)
    (hnh : hasYamlHeader c = false)
    (hdw : c.dropWhile pySpace = c)
    (hok : updateMetadata pt ln c = .ok o1) :
    updateMetadata pt ln o1 = .ok o1 := by
  rw [updateMetadata, if_neg (by simp [hf]), if_neg (by simp [hnh])] at hok
  simp only [Except.ok.injEq] at hok
  subst hok
  have hle : lineEnding c = ['\n'] ∨ lineEnding c = ['\r', '\n'] := lineEnding_cases c
  have hws0 : wsThenNL (lineEnding c) = true := by
    rcases hle with h | h <;> rw [h] <;> decide
  have hend0 : ∃ h', lineEnding c = h' ++ ['\n'] := by
    rcases hle with h | h
    · exact ⟨[], by simp [h]⟩
    · exact ⟨['\r'], by simp [h]⟩
  have htr0 : hasTriple (lineEnding c) = false := by
    rcases hle with h | h <;> rw [h] <;> decide
  obtain ⟨f2ws, f2end, f2tr, fpt, fln⟩ :=
    run1_interior_facts pt ln (lineEnding c) (lineEnding c) hbpt hbln htpt htln
      hle hws0 hend0 htr0
  have hsynth : synthHeader pt ln (lineEnding c) ++ c
      = "---".data ++
          applyEditV lnField ln (lineEnding c)
            (applyEditV ptField pt (lineEnding c) (lineEnding c)) ++
          "---".data ++ lineEnding c ++ c := by
    rw [← synth_interior_as_edits pt ln (lineEnding c) hbpt hle]
  rw [hsynth]
  have hle2 : lineEnding ("---".data ++
        applyEditV lnField ln (lineEnding c)
          (applyEditV ptField pt (lineEnding c) (lineEnding c)) ++
        "---".data ++ lineEnding c ++ c) = lineEnding c := by
    by_cases hcr : containsCRLF c = true
    · rw [lineEnding_of_crlf c hcr]
      exact lineEnding_out_crlf _ _
    · have hcr' : containsCRLF c = false := by simpa using hcr
      have hleq : lineEnding c = ['\n'] := by
        rw [lineEnding, if_neg (by simp [hcr'])]
      rw [hleq]
      refine lineEnding_out_lf _ _ ?_ hcr' ?_
      · refine applyEditV_no_crlf _ _ _ (by decide) (by decide) (by decide)
          (optAll_weaken_nr _ hbln) ?_
        exact applyEditV_no_crlf _ _ _ (by decide) (by decide) (by decide)
          (optAll_weaken_nr _ hbpt) (by decide)
      · have := f2end
        rw [hleq] at this
        exact this
  exact updateMetadata_fixpoint pt ln _ c (lineEnding c) hf (optAll_weaken_bs _ hbpt)
    (optAll_weaken_bs _ hbln) hle f2ws f2end f2tr hdw hle2 fpt fln

/-- Second run on the output of a headered-branch run reproduces it. -/
theorem c6_aux_headered (pt ln : Option (List Char)) (i' after o1 : List Char)
    (hf : (falsy pt && falsy ln) = false)
    (hbpt : optAll (fun x => (x != '\n') && ((x != '\r') && (x != '\\'))) pt = true)
    (hbln : optAll (fun x => (x != '\n') && ((x != '\r') && (x != '\\'))) ln = true)
    (htpt : optNoTriple pt = true) (htln : optNoTriple ln = true)
    (hws : wsThenNL (i' ++ ['\n']) = true)
    (htr : hasTriple ((i' ++ ['\n']) ++ ['-', '-']) = false)
    (hok : updateMetadata pt ln
      ("---".data ++ (i' ++ ['\n']) ++ "---".data ++ after) = .ok o1) :
    updateMetadata pt ln o1 = .ok o1 := by
  have hbpt' := optAll_weaken_bs _ hbpt
  have hbln' := optAll_weaken_bs _ hbln
  have hcontent : "---".data ++ (i' ++ ['\n']) ++ "---".data ++ after
      = '-' :: '-' :: '-' :: ((i' ++ ['\n']) ++ '-' :: '-' :: '-' :: after) := by
    simp [dashes_eq, List.append_assoc]
  have hh : hasYamlHeader ("---".data ++ (i' ++ ['\n']) ++ "---".data ++ after)
      = true := by
    rw [hcontent]
    show wsThenNL ((i' ++ ['\n']) ++ '-' :: '-' :: '-' :: after) = true
    exact wsThenNL_append _ _ hws
  have hhm : headerMatch ("---".data ++ (i' ++ ['\n']) ++ "---".data ++ after)
      = some (i' ++ ['\n'], after.dropWhile pySpace) := by
    rw [hcontent]
    show (findClose ((i' ++ ['\n']) ++ '-' :: '-' :: '-' :: after)).map
        (fun p => (p.1, p.2.dropWhile pySpace)) = _
    rw [findClose_append _ _ htr, Option.map_some']
  rw [updateMetadata_header_no_bs pt ln _ (i' ++ ['\n']) (after.dropWhile pySpace)
      hf hh hhm hbpt' hbln'] at hok
  simp only [Except.ok.injEq] at hok
  subst hok
  obtain ⟨f2ws, f2end, f2tr, fpt, fln⟩ :=
    run1_interior_facts pt ln
      (lineEnding ("---".data ++ (i' ++ ['\n']) ++ "---".data ++ after))
      (i' ++ ['\n']) hbpt hbln htpt htln (lineEnding_cases _) hws ⟨i', rfl⟩
      (hasTriple_prefix_false _ _ htr)
  have hle2 : lineEnding ("---".data ++
        applyEditV lnField ln
          (lineEnding ("---".data ++ (i' ++ ['\n']) ++ "---".data ++ after))
          (applyEditV ptField pt
            (lineEnding ("---".data ++ (i' ++ ['\n']) ++ "---".data ++ after))
            (i' ++ ['\n'])) ++
        "---".data ++
        lineEnding ("---".data ++ (i' ++ ['\n']) ++ "---".data ++ after) ++
        after.dropWhile pySpace)
      = lineEnding ("---".data ++ (i' ++ ['\n']) ++ "---".data ++ after) := by
    by_cases hcr :
        containsCRLF ("---".data ++ (i' ++ ['\n']) ++ "---".data ++ after) = true
    · rw [lineEnding_of_crlf _ hcr]
      exact lineEnding_out_crlf _ _
    · have hcr' :
          containsCRLF ("---".data ++ (i' ++ ['\n']) ++ "---".data ++ after)
            = false := by simpa using hcr
      have hleq :
          lineEnding ("---".data ++ (i' ++ ['\n']) ++ "---".data ++ after)
            = ['\n'] := by
        rw [lineEnding, if_neg (by rw [hcr']; simp)]
      rw [hleq]
      have h1 : crlfAux false
          ((("---".data ++ (i' ++ ['\n'])) ++ "---".data) ++ after) = false := hcr'
      obtain ⟨h2, hafter⟩ := crlfAux_split_false _ _ h1
      obtain ⟨h3, _⟩ := crlfAux_split_false _ _ h2
      obtain ⟨_, hint⟩ := crlfAux_split_false _ _ h3
      have hR : crlfAux false (after.dropWhile pySpace) = false := by
        have hsplit : after.takeWhile pySpace ++ after.dropWhile pySpace = after :=
          List.takeWhile_append_dropWhile pySpace after
        exact (crlfAux_split_false _ _ (by rw [hsplit]; exact hafter)).2
      refine lineEnding_out_lf _ _ ?_ hR ?_
      · refine applyEditV_no_crlf _ _ _ (by decide) (by decide) (by decide)
          (optAll_weaken_nr _ hbln) ?_
        exact applyEditV_no_crlf _ _ _ (by decide) (by decide) (by decide)
          (optAll_weaken_nr _ hbpt) hint
      · have := f2end
        rw [hleq] at this
        exact this
  exact updateMetadata_fixpoint pt ln _ _ _ hf hbpt' hbln' (lineEnding_cases _)
    f2ws f2end f2tr (dropWhile_idem _ _) hle2 fpt fln

/-- Claim C6, amended: idempotence fails in general — the second run's
greedy `\s*` strips whitespace at the start of the body, and values
holding `\n`, `\r`, `\\` or `---` derail the reparse — but it holds on
the two benign shapes: a headerless document that does not start with
whitespace, and a document whose header interior is newline-terminated,
free of `---` and well-formed; with values free of newlines, CRs,
backslashes and `---`, a second identical run on a successful first
run's output succeeds and returns it byte-for-byte unchanged. -/
theorem c6_idempotent (pt ln : Option (List Char)) (c o1 : List Char)
    (hf : (falsy pt && falsy ln) = false)
    (hbpt : optAll (fun x => (x != '\n') && ((x != '\r') && (x != '\\'))) pt = true)
    (hbln : optAll (fun x => (x != '\n') && ((x != '\r') && (x != '\\'))) ln = true)
    (htpt : optNoTriple pt = true) (htln : optNoTriple ln = true)
    (hbranch : (hasYamlHeader c = false ∧ c.dropWhile pySpace = c) ∨
      (∃ i' after, c = "---".data ++ (i' ++ ['\n']) ++ "---".data ++ after ∧
        wsThenNL (i' ++ ['\n']) = true ∧
        hasTriple ((i' ++ ['\n']) ++ ['-', '-']) = false))
    (hok : updateMetadata pt ln c = .ok o1) :
    updateMetadata pt ln o1 = .ok o1 := by
  rcases hbranch with ⟨hnh, hdw⟩ | ⟨i', after, rfl, hws, htr⟩
  · exact c6_aux_headerless pt ln c o1 hf hbpt hbln htpt htln hnh hdw hok
  · exact c6_aux_headered pt ln i' after o1 hf hbpt hbln htpt htln hws htr hok

/-- Claim C6, witness: a headered document whose pipeline tag is
rewritten, and a headerless document that gains a header, are both
fixpoints of a second identical run. -/
theorem c6_witness :
    updateMetadata (some ['x']) none
        ("---\na: b\npipeline_tag: x\n---\nBody".data)
      = .ok ("---\na: b\npipeline_tag: x\n---\nBody".data) ∧
    updateMetadata (some ['x']) none ("---\npipeline_tag: x\n---\nBody".data)
      = .ok ("---\npipeline_tag: x\n---\nBody".data) :=
  ⟨c6_idempotent (some ['x']) none ("---\na: b\npipeline_tag: z\n---\nBody".data)
      ("---\na: b\npipeline_tag: x\n---\nBody".data)
      (by decide) (by decide) (by decide) (by decide) (by decide)
      (Or.inr ⟨"\na: b\npipeline_tag: z".data, "\nBody".data, rfl,
        by decide, by decide⟩)
      rfl,
    c6_idempotent (some ['x']) none ("Body".data)
      ("---\npipeline_tag: x\n---\nBody".data)
      (by decide) (by decide) (by decide) (by decide) (by decide)
      (Or.inl ⟨by decide, by decide⟩)
      rfl⟩

